import Mathlib

/-!
Verification development for the Clue scanner (`src/core/src/scanner.rs`).

The scanner turns preprocessed source text into a list of tokens.  This file
gives a shallow embedding of the scanner: the scanner state (`Scanner`), the
lookahead-buffer operations (`advance`, `compare`, `peek`, `look_back`), the
literal scanners (`read_number`, `read_string`, `read_raw_string`), the symbol
table (`SYMBOLS`) and keyword table (`KEYWORDS`), and the driver loop
(`scan_code`).  Rust `Vec` indexing panics when out of bounds; the embedding
models every such access in an `Except Crash` monad, where `Crash.oob`
represents an index-out-of-bounds panic.  The loops of the source are embedded
with explicit fuel; running out of fuel is the distinct outcome `Crash.fuel`,
so an `oob` result unambiguously identifies a panic of the original program.

The source file `src/core/src/scanner.rs` depends on two items from the same
repository that are not part of the sources available here (`crate::code` and
`crate::errors`); those are modelled from the specification and marked as such
in their doc comments.  All other definitions are translated directly from
`scanner.rs`.
-/

set_option maxRecDepth 10000

namespace Clue

/-- The token's type, mirroring `enum TokenType` of the source, in declaration
order (the order determines the Rust discriminant). -/
inductive TokenType where
  | ROUND_BRACKET_OPEN | ROUND_BRACKET_CLOSED | SQUARE_BRACKET_OPEN
  | SQUARE_BRACKET_CLOSED | CURLY_BRACKET_OPEN | CURLY_BRACKET_CLOSED
  | SAFE_CALL | COMMA | SAFE_SQUARE_BRACKET | SEMICOLON | QUESTION_MARK
  | NOT | AND | OR | PLUS | MINUS | STAR | SLASH | FLOOR_DIVISION
  | PERCENTUAL | CARET | HASHTAG | COALESCE | DOT | DOUBLE_COLON | TWODOTS
  | COLON | THREEDOTS | ARROW | SAFE_DOT | SAFE_DOUBLE_COLON
  | BIT_AND | BIT_OR | BIT_XOR | BIT_NOT | LEFT_SHIFT | RIGHT_SHIFT
  | DEFINE | DEFINE_AND | DEFINE_OR | INCREASE | DECREASE | MULTIPLY | DIVIDE
  | DEFINE_COALESCE | EXPONENTIATE | CONCATENATE | MODULATE
  | BIGGER | BIGGER_EQUAL | SMALLER | SMALLER_EQUAL | EQUAL | NOT_EQUAL
  | IDENTIFIER | NUMBER | STRING
  | IF | ELSEIF | ELSE | FOR | OF | IN | WITH | WHILE | META | GLOBAL | UNTIL
  | LOCAL | FN | METHOD | RETURN | TRUE | FALSE | NIL | LOOP | STATIC | ENUM
  | CONTINUE | BREAK | TRY | CATCH | MATCH | DEFAULT | STRUCT | EXTERN
  | CONSTRUCTOR
  | EOF
  deriving DecidableEq, Repr

open TokenType

/-- The numeric discriminant of a `TokenType`, as Rust assigns it: the
position of the variant in declaration order. -/
def TokenType.tag : TokenType → Nat := TokenType.toCtorIdx

/-- The position (line, column and index) of the start or end of a token. -/
structure TokenPosition where
  line : Nat
  column : Nat
  index : Nat
  deriving DecidableEq, Repr

/-- A token: its type, its literal string and its location.  The `position`
range of the source is split into the two fields `startPos` and `endPos`. -/
structure Token where
  kind : TokenType
  lexeme : List Char
  startPos : TokenPosition
  endPos : TokenPosition
  deriving DecidableEq, Repr

/-- A recorded diagnostic.  Modelled from the spec: the error collaborator
(`crate::errors`, not among the available sources) receives a message, an
optional help text, a line, a column and a character-index span, and the
error counter is incremented. -/
structure Diag where
  message : String
  help : Option String
  line : Nat
  column : Nat
  spanStart : Nat
  spanEnd : Nat
  deriving DecidableEq, Repr

/-- Outcomes that abort a scan in the embedding: `oob` models a Rust
index-out-of-bounds panic, `fuel` marks exhaustion of the explicit fuel given
to an embedded loop (never a behaviour of the source program). -/
inductive Crash where
  | oob | fuel
  deriving DecidableEq, Repr

/-- The scanner's partial results: either a final value or a `Crash`. -/
abbrev M (α : Type) : Type := Except Crash α

/-- The NUL character used by the scanner as end-of-input sentinel. -/
def chNul : Char := Char.ofNat 0

/-- The backtick character (raw-string marker). -/
def chTick : Char := Char.ofNat 96

/-- The single-quote character (one of the two quoted-string delimiters). -/
def chSQuote : Char := Char.ofNat 39

/-- The open-curly-bracket character. -/
def chLCurly : Char := Char.ofNat 123

/-- The close-curly-bracket character. -/
def chRCurly : Char := Char.ofNat 125

/-- Modelled from the spec: the character source (`Code`/`CodeChars` of
`crate::code`, not among the available sources).  It provides pull-one-character
semantics with the NUL character once input is exhausted (`next_unwrapped`),
the current line and column, and the number of raw storage units consumed by
the last pull.  Each character of the modelled source occupies exactly one
storage unit (the claims under verification involve single-unit characters
only), so `bytes_read` is `1` for a real pull and `0` past the end. -/
structure CodeChars where
  src : List Char
  pos : Nat
  line : Nat
  column : Nat
  lastBytes : Nat
  deriving DecidableEq, Repr

/-- Modelled from the spec: pull one character, or NUL past the end. -/
def CodeChars.nextUnwrapped (c : CodeChars) : Char × CodeChars :=
  match c.src.get? c.pos with
  | some ch =>
      (ch, { c with pos := c.pos + 1, lastBytes := 1,
                    line := if ch = '\n' then c.line + 1 else c.line,
                    column := if ch = '\n' then 0 else c.column + 1 })
  | none => (chNul, { c with pos := c.pos + 1, lastBytes := 0 })

/-- The scanner state, mirroring `struct ScannerInfo` of the source (minus the
file name, which only feeds diagnostic rendering, out of scope).  `diags`
accumulates the diagnostics forwarded to the error collaborator. -/
structure Scanner where
  start : Nat
  current : Nat
  size : Nat
  code : CodeChars
  read : List Char
  positions : List (Nat × Nat)
  tokens : List Token
  last : TokenType
  errors : Nat
  diags : List Diag
  deriving DecidableEq, Repr

/-- Mirrors `push_next`: pull one character from the source and append it,
with its position, to the lookahead buffer. -/
def Scanner.pushNext (s : Scanner) : Scanner :=
  let (ch, code') := s.code.nextUnwrapped
  { s with code := code',
           read := s.read ++ [ch],
           positions := s.positions ++ [(code'.line, code'.column)] }

/-- Mirrors `ScannerInfo::new`: `size` is the character count plus two, and
the buffer is pre-filled with two characters. -/
def Scanner.new (input : List Char) : Scanner :=
  let s : Scanner :=
    { start := 0, current := 0, size := input.length + 2,
      code := { src := input, pos := 0, line := 1, column := 0, lastBytes := 0 },
      read := [], positions := [], tokens := [], last := EOF,
      errors := 0, diags := [] }
  s.pushNext.pushNext

/-- Mirrors `at`: `self.read[pos]`, a panicking `Vec` index. -/
def Scanner.atIdx (s : Scanner) (pos : Nat) : M Char :=
  match s.read.get? pos with
  | some c => .ok c
  | none => .error .oob

/-- Mirrors `ended`: `self.current >= self.size`. -/
def Scanner.ended (s : Scanner) : Bool :=
  s.size ≤ s.current

/-- Mirrors `advance`: push one character, read `read[current]`, shrink `size`
by `bytes_read - 1` when positive, and step `current`. -/
def Scanner.advance (s : Scanner) : M (Char × Scanner) := do
  let s1 := s.pushNext
  let prev ← s1.atIdx s1.current
  let rd := s1.code.lastBytes
  let s2 := if 0 < rd then { s1 with size := s1.size - (rd - 1) } else s1
  .ok (prev, { s2 with current := s2.current + 1 })

/-- Mirrors `compare`: consume the next character when it matches. -/
def Scanner.compare (s : Scanner) (expected : Char) : M (Bool × Scanner) :=
  if s.ended then .ok (false, s)
  else do
    let c ← s.atIdx s.current
    if c = expected then do
      let (_, s') ← s.advance
      .ok (true, s')
    else .ok (false, s)

/-- Mirrors `peek`: `self.at(self.current + pos)`. -/
def Scanner.peek (s : Scanner) (pos : Nat) : M Char :=
  s.atIdx (s.current + pos)

/-- Mirrors `look_back`: `self.at(self.current - 1)`; a zero `current` would
underflow in Rust, which is a panic. -/
def Scanner.lookBack (s : Scanner) : M Char :=
  if s.current = 0 then .error .oob else s.atIdx (s.current - 1)

/-- Mirrors `&self.read[a..b]`, a panicking slice. -/
def Scanner.sliceRead (s : Scanner) (a b : Nat) : M (List Char) :=
  if a ≤ b ∧ b ≤ s.read.length then .ok ((s.read.drop a).take (b - a))
  else .error .oob

/-- Mirrors `ScannerInfo::error` together with the error collaborator
(modelled from the spec): record the diagnostic at `positions[start]` with
span `start..current` and bump the error counter. -/
def Scanner.error (s : Scanner) (message : String) (help : Option String) :
    M Scanner := do
  let p ← (match s.positions.get? s.start with
           | some p => Except.ok p
           | none => Except.error Crash.oob)
  .ok { s with errors := s.errors + 1,
               diags := s.diags ++
                 [{ message := message, help := help, line := p.1,
                    column := p.2, spanStart := s.start, spanEnd := s.current }] }

/-- The apostrophe, as a one-character string (used in diagnostic texts). -/
def apos : String := String.singleton chSQuote

/-- Wraps a string in apostrophes, as the source's diagnostic texts do. -/
def quoted (t : String) : String := apos ++ t ++ apos

/-- Mirrors `reserved`: record the reserved-keyword diagnostic and classify
as identifier. -/
def Scanner.reserved (s : Scanner) (keyword : String) (msg : String) :
    M (TokenType × Scanner) := do
  let s' ← s.error
    (quoted keyword ++ " is a reserved keyword in Lua and it cannot be used as a variable")
    (some msg)
  .ok (IDENTIFIER, s')

/-- Mirrors `range`: the token-position range `start..current`, reading
`positions[start]` and `positions[current]`. -/
def Scanner.range (s : Scanner) : M (TokenPosition × TokenPosition) := do
  let ps ← (match s.positions.get? s.start with
            | some p => Except.ok p
            | none => Except.error Crash.oob)
  let pc ← (match s.positions.get? s.current with
            | some p => Except.ok p
            | none => Except.error Crash.oob)
  .ok ({ line := ps.1, column := ps.2, index := s.start },
       { line := pc.1, column := pc.2, index := s.current })

/-- Mirrors `add_literal_token`: append a token with an explicit literal;
does not update `last`. -/
def Scanner.addLiteralToken (s : Scanner) (kind : TokenType)
    (literal : List Char) : M Scanner := do
  let (a, b) ← s.range
  .ok { s with tokens := s.tokens ++
          [{ kind := kind, lexeme := literal, startPos := a, endPos := b }] }

/-- Mirrors `add_token`: append a token whose lexeme is the slice
`read[start..current]`, and update `last`. -/
def Scanner.addToken (s : Scanner) (kind : TokenType) : M Scanner := do
  let (a, b) ← s.range
  let lex ← s.sliceRead s.start s.current
  .ok { s with last := kind,
               tokens := s.tokens ++
                 [{ kind := kind, lexeme := lex, startPos := a, endPos := b }] }

/-- Mirrors Rust `char::is_ascii_digit`. -/
def isAsciiDigitC (c : Char) : Bool := '0' ≤ c && c ≤ '9'

/-- Mirrors Rust `char::is_ascii_alphabetic`. -/
def isAsciiAlphaC (c : Char) : Bool :=
  ('a' ≤ c && c ≤ 'z') || ('A' ≤ c && c ≤ 'Z')

/-- Mirrors Rust `char::is_ascii_alphanumeric`. -/
def isAsciiAlphaNumC (c : Char) : Bool := isAsciiAlphaC c || isAsciiDigitC c

/-- Mirrors Rust `char::is_whitespace` (the Unicode `White_Space` set). -/
def isWhitespaceC (c : Char) : Bool :=
  let n := c.toNat
  (9 ≤ n && n ≤ 13) || n == 32 || n == 133 || n == 160 || n == 5760 ||
    (8192 ≤ n && n ≤ 8202) || n == 8232 || n == 8233 || n == 8239 ||
    n == 8287 || n == 12288

/-- The digit class used by `scan_code` for `0x`/`0X` numerals. -/
def isHexDigitC (c : Char) : Bool :=
  isAsciiDigitC c || ('a' ≤ c && c ≤ 'f') || ('A' ≤ c && c ≤ 'F')

/-- The digit class used by `scan_code` for `0b`/`0B` numerals. -/
def isBinDigitC (c : Char) : Bool := c == '0' || c == '1'

/-- The fuelled `while check(&self.peek(0)) { self.advance(); }` loops of
`read_number`. -/
def digitLoop (check : Char → Bool) : Nat → Scanner → M Scanner
  | 0, _ => .error .fuel
  | fuel + 1, s => do
      let c ← s.peek 0
      if check c then do
        let (_, s') ← s.advance
        digitLoop check fuel s'
      else .ok s

/-- Mirrors the integer-suffix match at the end of `read_number`: the
two-element lookahead slice `&self.read[self.current..self.current + 2]`
against `LL` and `UL`. -/
def numberSuffix (s : Scanner) : M Scanner := do
  let two ← s.sliceRead s.current (s.current + 2)
  if two = ['L', 'L'] then do
    let (_, s) ← s.advance
    let (_, s) ← s.advance
    .ok s
  else if two = ['U', 'L'] then do
    let c ← s.peek 2
    if c = 'L' then do
      let (_, s) ← s.advance
      let (_, s) ← s.advance
      let (_, s) ← s.advance
      .ok s
    else s.error "Malformed number" none
  else .ok s

/-- Mirrors `read_number`: mantissa digits, an optional fractional part
(`peek(0) == '.' && check(&peek(1))`, with Rust's short-circuit order), then
either the scientific-notation handling (`simple`) or the empty-mantissa
check, the integer suffix, and the `NUMBER` token. -/
def readNumber (check : Char → Bool) (simple : Bool) (s : Scanner) :
    M Scanner := do
  let start := s.current
  let s ← digitLoop check (s.size + 2) s
  let c0 ← s.peek 0
  let s ← (if c0 = '.' then do
      let c1 ← s.peek 1
      if check c1 then do
        let (_, s) ← s.advance
        digitLoop check (s.size + 2) s
      else .ok s
    else .ok s)
  let s ← (if simple then do
      let c ← s.peek 0
      if c = 'e' ∨ c = 'E' then do
        let c1 ← s.peek 1
        let s ← (if ¬ isAsciiDigitC c1 then do
            if c1 = '-' then do
              let c2 ← s.peek 2
              if isAsciiDigitC c2 then do
                let (_, s) ← s.advance
                Except.ok s
              else s.error "Malformed number" none
            else s.error "Malformed number" none
          else .ok s)
        let (_, s) ← s.advance
        digitLoop isAsciiDigitC (s.size + 2) s
      else .ok s
    else if s.current = start then s.error "Malformed number" none
    else .ok s)
  let s ← numberSuffix s
  s.addToken NUMBER

/-- Mirrors the `read_string_contents` loop: advance until the unescaped
delimiter or end of input, skipping the character after each backslash; on
exhausted input record the unterminated-string error and yield `false`. -/
def readStringContents (strend : Char) : Nat → Scanner → M (Bool × Scanner)
  | 0, _ => .error .fuel
  | fuel + 1, s =>
      if s.ended then do
        let s' ← s.error "Unterminated string" none
        .ok (false, s')
      else do
        let c ← s.peek 0
        if c = strend then .ok (true, s)
        else do
          let (_, s1) ← s.advance
          let lb ← s1.lookBack
          if lb = '\\' then do
            let (_, s2) ← s1.advance
            readStringContents strend fuel s2
          else readStringContents strend fuel s1

/-- Mirrors `read_string`: on success, consume the closing delimiter and store
the span `read[start..current]` with raw carriage-return, newline and tab
characters stripped. -/
def readString (strend : Char) (s : Scanner) : M Scanner := do
  let (closed, s) ← readStringContents strend (s.size + 4) s
  if closed then do
    let (_, s) ← s.advance
    let span ← s.sliceRead s.start s.current
    let literal := span.filter (fun c => ¬ (c = '\r' ∨ c = '\n' ∨ c = '\t'))
    s.addLiteralToken STRING literal
  else .ok s

/-- Mirrors Rust `str::replace("\\`", "`")` on the raw-string content:
left-to-right, non-overlapping replacement of backslash-backtick by a
backtick. -/
def replaceEsc : List Char → List Char
  | [] => []
  | [c] => [c]
  | c :: c2 :: rest =>
      if c = '\\' ∧ c2 = chTick then chTick :: replaceEsc rest
      else c :: replaceEsc (c2 :: rest)

/-- Whether `pat` is a leading subsequence of `l` (helper for `occursIn`). -/
def leadMatch : List Char → List Char → Bool
  | [], _ => true
  | _ :: _, [] => false
  | p :: ps, c :: cs => p == c && leadMatch ps cs

/-- Mirrors Rust `str::contains(pat)`: whether `pat` occurs as a contiguous
substring of `l`. -/
def occursIn (pat : List Char) : List Char → Bool
  | [] => leadMatch pat []
  | c :: cs => leadMatch pat (c :: cs) || occursIn pat cs

/-- The collision pattern of bracket level `k`: a close bracket, `k` equals
signs, and a close bracket. -/
def bracketPat (k : Nat) : List Char := ']' :: (List.replicate k '=' ++ [']'])

/-- Mirrors `literal.ends_with(']')`. -/
def endsWithRB (l : List Char) : Bool :=
  match l.getLast? with
  | some c => c == ']'
  | none => false

/-- The fuelled bracket-level loop of `read_raw_string`: starting from level
`k`, grow the level while it is forced (`must`) or while the collision
pattern of the current level occurs in the content. -/
def bracketsLoop (lit : List Char) : Nat → Bool → Nat → Nat
  | 0, _, k => k
  | fuel + 1, must, k =>
      if must || occursIn (bracketPat k) lit then bracketsLoop lit fuel false (k + 1)
      else k

/-- The raw-string post-processing of `read_raw_string`: compute the bracket
level from the captured content, then wrap the escape-replaced content in the
level's bracket pair. -/
def rawWrap (lit : List Char) : List Char :=
  let k := bracketsLoop lit (lit.length + 2) (endsWithRB lit) 0
  let eqs := List.replicate k '='
  ['['] ++ eqs ++ ['['] ++ replaceEsc lit ++ [']'] ++ eqs ++ [']']

/-- Mirrors `read_raw_string`: scan the backtick-delimited contents, then
store the bracket-wrapped literal built from `read[start+1..current-1]`. -/
def readRawString (s : Scanner) : M Scanner := do
  let (closed, s) ← readStringContents chTick (s.size + 4) s
  if closed then do
    let (_, s) ← s.advance
    let lit ← s.sliceRead (s.start + 1) (s.current - 1)
    s.addLiteralToken STRING (rawWrap lit)
  else .ok s

/-- The three scanner routines stored as `SymbolType::Function` closures in
the symbol table: the `?:` handler, quoted-string scanning with a given
delimiter, and raw-string scanning. -/
inductive FnAction where
  | qcolon
  | str : Char → FnAction
  | raw
  deriving DecidableEq, Repr

/-- Mirrors `enum SymbolType`: a leaf token kind, a scanner routine, or a
nested table with a default kind.  The per-level dispatch array of the source
(94 slots indexed by `character - '!'`) is embedded as an association list
whose keys all lie in the printable range; `lookupSym` reproduces the array's
bounds behaviour. -/
inductive SymbolType where
  | Just : TokenType → SymbolType
  | Func : FnAction → SymbolType
  | Symbols : List (Char × SymbolType) → TokenType → SymbolType

/-- Mirrors the symbol-table lookup `(c as usize).checked_sub('!')` followed
by the array access: characters outside the 94-slot printable range have no
entry. -/
def lookupSym (m : List (Char × SymbolType)) (c : Char) : Option SymbolType :=
  if c.toNat < 33 ∨ 127 ≤ c.toNat then none
  else (m.find? (fun p => p.1 == c)).map (fun p => p.2)

open SymbolType in
/-- Mirrors the `SYMBOLS` table, entry for entry in source order. -/
def SYMBOLS : List (Char × SymbolType) :=
  [('(', Just ROUND_BRACKET_OPEN),
   (')', Just ROUND_BRACKET_CLOSED),
   ('[', Just SQUARE_BRACKET_OPEN),
   (']', Just SQUARE_BRACKET_CLOSED),
   (chLCurly, Just CURLY_BRACKET_OPEN),
   (chRCurly, Just CURLY_BRACKET_CLOSED),
   (',', Just COMMA),
   ('.', Symbols
      [('.', Symbols
          [('.', Just THREEDOTS),
           ('=', Just CONCATENATE)] TWODOTS)] DOT),
   (';', Just SEMICOLON),
   ('+', Symbols [('=', Just INCREASE)] PLUS),
   ('-', Symbols [('=', Just DECREASE)] MINUS),
   ('*', Symbols [('=', Just MULTIPLY)] STAR),
   ('^', Symbols [('=', Just EXPONENTIATE), ('^', Just BIT_XOR)] CARET),
   ('#', Just HASHTAG),
   ('/', Symbols [('=', Just DIVIDE), ('_', Just FLOOR_DIVISION)] SLASH),
   ('%', Symbols [('=', Just MODULATE)] PERCENTUAL),
   ('!', Symbols [('=', Just NOT_EQUAL)] NOT),
   ('~', Just BIT_NOT),
   ('=', Symbols [('=', Just EQUAL), ('>', Just ARROW)] DEFINE),
   ('<', Symbols [('=', Just SMALLER_EQUAL), ('<', Just LEFT_SHIFT)] SMALLER),
   ('>', Symbols [('=', Just BIGGER_EQUAL), ('>', Just RIGHT_SHIFT)] BIGGER),
   ('?', Symbols
      [('.', Just SAFE_DOT),
       (':', Func .qcolon),
       ('[', Just SAFE_SQUARE_BRACKET),
       ('?', Symbols [('=', Just DEFINE_COALESCE)] COALESCE),
       ('(', Just SAFE_CALL)] QUESTION_MARK),
   ('&', Symbols
      [('&', Symbols [('=', Just DEFINE_AND)] AND)] BIT_AND),
   (':', Symbols [(':', Just DOUBLE_COLON)] COLON),
   ('|', Symbols
      [('|', Symbols [('=', Just DEFINE_OR)] OR)] BIT_OR),
   ('"', Func (.str '"')),
   (chSQuote, Func (.str chSQuote)),
   (chTick, Func .raw)]

/-- Runs a `SymbolType::Function` closure: the `?:` handler (which either
completes `?::` or rolls one character back, emitting nothing), or one of the
string scanners. -/
def runFnAction (a : FnAction) (s : Scanner) : M Scanner :=
  match a with
  | .qcolon => do
      let (matched, s1) ← s.compare ':'
      if matched then s1.addToken SAFE_DOUBLE_COLON
      else .ok { s1 with current := s1.current - 1 }
  | .str d => readString d s
  | .raw => readRawString s

/-- Mirrors `scan_char`: dispatch on the table entry for `c`; on a branch,
consume one further character, recurse, and on failure roll that one
character back and emit the branch's default kind.  The trie has finite
depth, so any fuel of at least five suffices. -/
def scanChar : Nat → List (Char × SymbolType) → Char → Scanner →
    M (Bool × Scanner)
  | 0, _, _, _ => .error .fuel
  | fuel + 1, m, c, s =>
      match lookupSym m c with
      | none => .ok (false, s)
      | some (.Just kind) => do
          let s' ← s.addToken kind
          .ok (true, s')
      | some (.Func a) => do
          let s' ← runFnAction a s
          .ok (true, s')
      | some (.Symbols m' dflt) => do
          let (nextc, s1) ← s.advance
          let (matched, s2) ← scanChar fuel m' nextc s1
          if matched then .ok (true, s2)
          else do
            let s3 := { s2 with current := s2.current - 1 }
            let s4 ← s3.addToken dflt
            .ok (true, s4)

/-- Mirrors `enum KeywordType`. -/
inductive KeywordType where
  | Just : TokenType → KeywordType
  | Lua : TokenType → KeywordType
  | Error : String → KeywordType
  | Reserved : String → KeywordType

open KeywordType in
/-- Mirrors the static `KEYWORDS` map, entry for entry in source order (the
help texts are built with `quoted` solely to spell their apostrophes; curly
brackets inside them are written with their code-point escapes). -/
def KEYWORDS : List (String × KeywordType) :=
  [("and", Reserved (quoted "and" ++ " operators in Clue are made with " ++ quoted "&&")),
   ("not", Reserved (quoted "not" ++ " operators in Clue are made with " ++ quoted "!")),
   ("or", Reserved (quoted "or" ++ " operators in Clue are made with " ++ quoted "||")),
   ("do", Reserved (quoted "do ... end" ++ " blocks in Clue are made like this: " ++ quoted "\x7b ... \x7d")),
   ("end", Reserved ("code blocks in Clue are closed with " ++ quoted "\x7d")),
   ("function", Reserved ("functions in Clue are defined with the " ++ quoted "fn" ++ " keyword")),
   ("repeat", Reserved (quoted "repeat ... until x" ++ " loops in Clue are made like this: " ++ quoted "loop \x7b ... \x7d until x")),
   ("then", Reserved ("code blocks in Clue are opened with " ++ quoted "\x7b")),
   ("if", Lua IF),
   ("elseif", Lua ELSEIF),
   ("else", Lua ELSE),
   ("for", Lua FOR),
   ("in", Lua IN),
   ("while", Lua WHILE),
   ("until", Lua UNTIL),
   ("local", Lua LOCAL),
   ("return", Lua RETURN),
   ("true", Lua TRUE),
   ("false", Lua FALSE),
   ("nil", Lua NIL),
   ("break", Lua BREAK),
   ("of", Just OF),
   ("with", Just WITH),
   ("meta", Just META),
   ("global", Just GLOBAL),
   ("fn", Just FN),
   ("method", Just METHOD),
   ("loop", Just LOOP),
   ("static", Just STATIC),
   ("enum", Just ENUM),
   ("continue", Just CONTINUE),
   ("try", Just TRY),
   ("catch", Just CATCH),
   ("match", Just MATCH),
   ("default", Just DEFAULT),
   ("constructor", Error (quoted "constructor" ++ " is reserved for Clue 4.0 and cannnot be used.")),
   ("struct", Error (quoted "struct" ++ " is reserved for Clue 4.0 and cannot be used")),
   ("extern", Error (quoted "extern" ++ " is reserved for Clue 4.0 and cannot be used"))]

/-- Mirrors `KEYWORDS.get(ident.as_bytes())`. -/
def keywordsLookup (ident : List Char) : Option KeywordType :=
  (KEYWORDS.find? (fun p => p.1.toList == ident)).map (fun p => p.2)

/-- The member-access token kinds of the keyword-suppression guard
`matches!(i.last, DOT | SAFE_DOT | DOUBLE_COLON | SAFE_DOUBLE_COLON)`. -/
def isAccessTok (t : TokenType) : Bool :=
  t == DOT || t == SAFE_DOT || t == DOUBLE_COLON || t == SAFE_DOUBLE_COLON

/-- Mirrors the keyword-resolution `match` of `scan_code`, with its arm order:
`Lua` first, then `Reserved`, then the member-access guard, then `Just` and
`Error`. -/
def identKind (s : Scanner) (ident : List Char) : M (TokenType × Scanner) :=
  match keywordsLookup ident with
  | none => .ok (IDENTIFIER, s)
  | some (.Lua kind) => .ok (kind, s)
  | some (.Reserved e) => s.reserved (String.mk ident) e
  | some (.Just kind) =>
      if isAccessTok s.last then .ok (IDENTIFIER, s) else .ok (kind, s)
  | some (.Error e) =>
      if isAccessTok s.last then .ok (IDENTIFIER, s)
      else do
        let s' ← s.error e none
        .ok (IDENTIFIER, s')

/-- The fuelled `loop` of `read_identifier`, accumulating identifier
characters. -/
def identLoop : Nat → Scanner → List Char → M (List Char × Scanner)
  | 0, _, _ => .error .fuel
  | fuel + 1, s, acc => do
      let c ← s.peek 0
      if isAsciiAlphaNumC c || c == '_' then do
        let (_, s') ← s.advance
        identLoop fuel s' (acc ++ [c])
      else .ok (acc, s)

/-- Mirrors `read_identifier`: start from `read[start]` and extend while the
next character is alphanumeric or an underscore. -/
def readIdentifier (s : Scanner) : M (List Char × Scanner) := do
  let c0 ← s.atIdx s.start
  identLoop (s.size + 2) s [c0]

/-- The diagnostic text of the unexpected-character error. -/
def unexpectedMsg (c : Char) : String :=
  "Unexpected character " ++ quoted (String.singleton c)

/-- The number-dispatch of the driver loop: on a leading `0`, look ahead for
the hexadecimal or binary prefix (skipping it with a bare `current += 1`),
else scan a decimal number. -/
def numberDispatch (c : Char) (s : Scanner) : M Scanner :=
  if c = '0' then do
    let p ← s.peek 0
    if p = 'x' ∨ p = 'X' then
      readNumber isHexDigitC false { s with current := s.current + 1 }
    else if p = 'b' ∨ p = 'B' then
      readNumber isBinDigitC false { s with current := s.current + 1 }
    else readNumber isAsciiDigitC true s
  else readNumber isAsciiDigitC true s

/-- Fuel for `scan_char`: the symbol trie is at most four levels deep. -/
def symFuel : Nat := 8

/-- The fuelled driver loop of `scan_code`: while input remains and the next
character is not NUL, record the token start, consume one character, and
dispatch (symbol table, whitespace, digit, identifier start, else the
unexpected-character error). -/
def scanLoop : Nat → Scanner → M Scanner
  | 0, _ => .error .fuel
  | fuel + 1, s =>
      if s.ended then .ok s
      else do
        let c0 ← s.peek 0
        if c0 = chNul then .ok s
        else do
          let s := { s with start := s.current }
          let (c, s) ← s.advance
          let (matched, s) ← scanChar symFuel SYMBOLS c s
          if matched then scanLoop fuel s
          else if isWhitespaceC c then scanLoop fuel s
          else if isAsciiDigitC c then do
            let s ← numberDispatch c s
            scanLoop fuel s
          else if isAsciiAlphaC c || c == '_' then do
            let (ident, s) ← readIdentifier s
            let (kind, s) ← identKind s ident
            let s ← s.addToken kind
            scanLoop fuel s
          else do
            let s ← s.error (unexpectedMsg c) none
            scanLoop fuel s

/-- Mirrors `scan_code` up to `finish_step`: run the driver loop on a fresh
scanner and append the EOF token with the fixed `<end>` marker.  The result
is the final scanner state, whose `tokens`, `errors` and `diags` fields are
what `finish_step` consumes. -/
def scanCode (input : List Char) : M Scanner := do
  let s := Scanner.new input
  let s ← scanLoop (input.length + 4) s
  s.addLiteralToken EOF "<end>".toList

/-- Modelled from the spec: `finish_step` (of `crate::errors`, not among the
available sources) succeeds with the token list iff the error counter is
zero. -/
def finishStep (s : Scanner) : Except Nat (List Token) :=
  if s.errors = 0 then .ok s.tokens else .error s.errors

/-- Mirrors the full `scan_code`: tokens on success, the error count
otherwise (the rendered message string is out of scope). -/
def scanCodeResult (input : List Char) : M (Except Nat (List Token)) := do
  let s ← scanCode input
  .ok (finishStep s)

/-- Observer: the token kinds of a scan. -/
def scanKinds (str : String) : M (List TokenType) :=
  (scanCode str.toList).map (fun s => s.tokens.map Token.kind)

/-- Observer: the token lexemes of a scan. -/
def scanLexemes (str : String) : M (List String) :=
  (scanCode str.toList).map (fun s => s.tokens.map (fun t => t.lexeme.asString))

/-- Observer: the diagnostic messages of a scan. -/
def scanMsgs (str : String) : M (List String) :=
  (scanCode str.toList).map (fun s => s.diags.map Diag.message)

/-- The virtual character at index `i` of the source: the real character, or
NUL once past the end (exactly what `next_unwrapped` hands the buffer). -/
def padGet (src : List Char) (i : Nat) : Char := src.getD i chNul

/-- The first `n` virtual characters of the source: the lookahead buffer of a
scanner that has pulled `n` times. -/
def padTake (src : List Char) (n : Nat) : List Char :=
  (List.range n).map (padGet src)

/-- The buffer invariant of a reachable scanner state: the lookahead buffer
holds exactly the pulled prefix of the (NUL-padded) source, positions are
recorded one per pulled character, `size` is the source length plus two, and
the cursor does not exceed the pulled prefix. -/
def Inv (s : Scanner) : Prop :=
  s.read = padTake s.code.src s.code.pos ∧
  s.positions.length = s.code.pos ∧
  s.size = s.code.src.length + 2 ∧
  s.current ≤ s.code.pos

/-- The abstract effect of one successful `advance` in the single-storage-unit
model: pull one character and step the cursor. -/
def stepChar (s : Scanner) : Scanner :=
  { s.pushNext with current := s.current + 1 }

/-- `n` successive `advance` steps. -/
def advanceN : Nat → Scanner → Scanner
  | 0, s => s
  | n + 1, s => advanceN n (stepChar s)

/-- Specification-side description of the quoted/raw-string contents loop:
the number of characters strictly before the first unescaped occurrence of
the delimiter `d`, where a backslash makes the following character literal
(including the delimiter itself); `none` when the input ends first. -/
def findClose (d : Char) : List Char → Option Nat
  | [] => none
  | c :: r =>
      if c = d then some 0
      else if c = '\\' then
        match r with
        | [] => none
        | _ :: r2 => (findClose d r2).map (fun k => k + 2)
      else (findClose d r).map (fun k => k + 1)

/-- The end-position index of a token (proof-side shorthand). -/
def endIdx (t : Token) : Nat := t.endPos.index

/-- Wellformedness of an accumulated token list against an index bound: no
token is an EOF token, every token has a non-empty span, every end index is
at most the bound, and the end indices are non-decreasing. -/
def TokInv (tk : List Token) (b : Nat) : Prop :=
  (∀ t ∈ tk, t.kind ≠ EOF ∧ t.startPos.index < t.endPos.index ∧
     t.endPos.index ≤ b) ∧
  List.Chain' (fun x y => x ≤ y) (tk.map endIdx)

/-- Fuelled wellformedness of a symbol table: no stored token kind, leaf or
branch default, is the EOF kind (proof-side; checked on SYMBOLS by
evaluation). -/
def tableOKf : Nat → List (Char × SymbolType) → Bool
  | 0, _ => false
  | fuel + 1, m =>
      m.all (fun p => match p.2 with
        | .Just k => k != EOF
        | .Func _ => true
        | .Symbols mm d => d != EOF && tableOKf fuel mm)

/-- No keyword resolves to the EOF kind (proof-side; checked on KEYWORDS by
evaluation). -/
def kwOK : KeywordType → Bool
  | .Just k => k != EOF
  | .Lua k => k != EOF
  | _ => true

/-! ## Basic lemmas about the buffer model -/

theorem padTake_length (src : List Char) (n : Nat) :
    (padTake src n).length = n := by
  simp [padTake]

theorem padTake_get? (src : List Char) {n i : Nat} (h : i < n) :
    (padTake src n).get? i = some (padGet src i) := by
  simp only [padTake, List.get?_eq_getElem?, List.getElem?_map,
    List.getElem?_range h, Option.map_some']

theorem padTake_succ (src : List Char) (n : Nat) :
    padTake src (n + 1) = padTake src n ++ [padGet src n] := by
  simp [padTake, List.range_succ]

theorem pushNext_fields (s : Scanner) :
    (s.pushNext).read = s.read ++ [padGet s.code.src s.code.pos] ∧
    (s.pushNext).positions.length = s.positions.length + 1 ∧
    (s.pushNext).code.src = s.code.src ∧
    (s.pushNext).code.pos = s.code.pos + 1 ∧
    (s.pushNext).start = s.start ∧
    (s.pushNext).current = s.current ∧
    (s.pushNext).size = s.size ∧
    (s.pushNext).tokens = s.tokens ∧
    (s.pushNext).last = s.last ∧
    (s.pushNext).errors = s.errors ∧
    (s.pushNext).diags = s.diags := by
  unfold Scanner.pushNext CodeChars.nextUnwrapped
  cases h : s.code.src.get? s.code.pos with
  | none =>
      have h2 : s.code.src[s.code.pos]? = none := by
        rw [← List.get?_eq_getElem?]; exact h
      simp [padGet, List.getD, h, h2]
  | some c =>
      have h2 : s.code.src[s.code.pos]? = some c := by
        rw [← List.get?_eq_getElem?]; exact h
      simp [padGet, List.getD, h, h2]

theorem stepChar_fields (s : Scanner) :
    (stepChar s).read = s.read ++ [padGet s.code.src s.code.pos] ∧
    (stepChar s).positions.length = s.positions.length + 1 ∧
    (stepChar s).code.src = s.code.src ∧
    (stepChar s).code.pos = s.code.pos + 1 ∧
    (stepChar s).start = s.start ∧
    (stepChar s).current = s.current + 1 ∧
    (stepChar s).size = s.size ∧
    (stepChar s).tokens = s.tokens ∧
    (stepChar s).last = s.last ∧
    (stepChar s).errors = s.errors ∧
    (stepChar s).diags = s.diags := by
  have h := pushNext_fields s
  unfold stepChar
  exact ⟨h.1, h.2.1, h.2.2.1, h.2.2.2.1, h.2.2.2.2.1, rfl, h.2.2.2.2.2.2.1,
    h.2.2.2.2.2.2.2.1, h.2.2.2.2.2.2.2.2.1, h.2.2.2.2.2.2.2.2.2.1,
    h.2.2.2.2.2.2.2.2.2.2⟩

theorem Inv_stepChar {s : Scanner} (h : Inv s) : Inv (stepChar s) := by
  obtain ⟨hr, hp, hs, hc⟩ := h
  obtain ⟨f1, f2, f3, f4, _, f6, f7, _⟩ := stepChar_fields s
  refine ⟨?_, ?_, ?_, ?_⟩
  · rw [f1, f3, f4, padTake_succ, hr]
  · rw [f2, f4, hp]
  · rw [f7, f3, hs]
  · rw [f6, f4]; omega

theorem pushNext_lastBytes (s : Scanner) :
    s.pushNext.code.lastBytes = 0 ∨ s.pushNext.code.lastBytes = 1 := by
  unfold Scanner.pushNext CodeChars.nextUnwrapped
  cases h : s.code.src.get? s.code.pos <;> simp [h]

theorem advance_eq {s : Scanner} (h : Inv s) :
    s.advance = .ok (padGet s.code.src s.current, stepChar s) := by
  obtain ⟨hr, hp, hs, hc⟩ := h
  have f := pushNext_fields s
  have hat : s.pushNext.read.get? s.pushNext.current =
      some (padGet s.code.src s.current) := by
    rw [f.1, hr, ← padTake_succ, f.2.2.2.2.2.1, padTake_get?]
    omega
  have hat2 : s.pushNext.read[s.current]? = some (padGet s.code.src s.current) := by
    rw [← List.get?_eq_getElem?]
    rw [f.2.2.2.2.2.1] at hat
    exact hat
  unfold Scanner.advance Scanner.atIdx
  rcases pushNext_lastBytes s with h0 | h1
  · simp [hat2, h0, stepChar, f.2.2.2.2.2.1]
    rfl
  · simp [hat2, h1, stepChar, f.2.2.2.2.2.1]
    rfl

theorem advanceN_fields (n : Nat) (s : Scanner) :
    (advanceN n s).current = s.current + n ∧
    (advanceN n s).code.src = s.code.src ∧
    (advanceN n s).code.pos = s.code.pos + n ∧
    (advanceN n s).start = s.start ∧
    (advanceN n s).size = s.size ∧
    (advanceN n s).tokens = s.tokens ∧
    (advanceN n s).last = s.last ∧
    (advanceN n s).errors = s.errors ∧
    (advanceN n s).diags = s.diags := by
  induction n generalizing s with
  | zero => simp [advanceN]
  | succ n ih =>
      have f := stepChar_fields s
      have := ih (stepChar s)
      simp only [advanceN]
      refine ⟨?_, ?_, ?_, ?_, ?_, ?_, ?_, ?_, ?_⟩ <;>
        simp_all only [] <;> omega

theorem Inv_advanceN {s : Scanner} (h : Inv s) (n : Nat) :
    Inv (advanceN n s) := by
  induction n generalizing s with
  | zero => exact h
  | succ n ih => exact ih (Inv_stepChar h)

theorem advanceN_add (m n : Nat) (s : Scanner) :
    advanceN (m + n) s = advanceN n (advanceN m s) := by
  induction m generalizing s with
  | zero => simp [advanceN]
  | succ m ih =>
      have : m + 1 + n = m + n + 1 := by omega
      rw [this]
      show advanceN (m + n) (stepChar s) = _
      rw [ih (stepChar s)]
      rfl

theorem atIdx_eq {s : Scanner} (h : Inv s) {i : Nat} (hi : i < s.code.pos) :
    s.atIdx i = .ok (padGet s.code.src i) := by
  unfold Scanner.atIdx
  rw [h.1, padTake_get? _ hi]

theorem atIdx_oob {s : Scanner} (h : Inv s) {i : Nat} (hi : s.code.pos ≤ i) :
    s.atIdx i = .error .oob := by
  unfold Scanner.atIdx
  have : s.read.get? i = none := by
    rw [h.1, List.get?_eq_none]
    rw [padTake_length]
    exact hi
  rw [this]

theorem peek_eq {s : Scanner} (h : Inv s) {k : Nat}
    (hk : s.current + k < s.code.pos) :
    s.peek k = .ok (padGet s.code.src (s.current + k)) :=
  atIdx_eq h hk

theorem peek_oob {s : Scanner} (h : Inv s) {k : Nat}
    (hk : s.code.pos ≤ s.current + k) :
    s.peek k = .error .oob :=
  atIdx_oob h hk

/-- The characters at indices `a ≤ i < b` of the padded source. -/
def padSlice (src : List Char) (a b : Nat) : List Char :=
  (List.range' a (b - a)).map (padGet src)

theorem sliceRead_eq {s : Scanner} (h : Inv s) {a b : Nat} (hab : a ≤ b)
    (hb : b ≤ s.code.pos) :
    s.sliceRead a b = .ok (padSlice s.code.src a b) := by
  unfold Scanner.sliceRead
  have hlen : s.read.length = s.code.pos := by rw [h.1, padTake_length]
  rw [if_pos ⟨hab, by omega⟩]
  congr 1
  apply List.ext_getElem?
  intro i
  by_cases hi : i < b - a
  · rw [List.getElem?_take, if_pos hi, List.getElem?_drop]
    have h1 : a + i < s.code.pos := by omega
    have h2 : (padTake s.code.src s.code.pos)[a + i]? = some (padGet s.code.src (a + i)) := by
      have := padTake_get? s.code.src h1
      rwa [List.get?_eq_getElem?] at this
    rw [h.1, h2]
    have h3 : (padSlice s.code.src a b)[i]? = some (padGet s.code.src (a + i)) := by
      simp [padSlice, hi]
    rw [h3]
  · have h4 : ((s.read.drop a).take (b - a)).length ≤ b - a := by
      simp [List.length_take]
    have h5 : (padSlice s.code.src a b).length = b - a := by
      simp [padSlice]
    rw [List.getElem?_eq_none (by omega), List.getElem?_eq_none (by omega)]

theorem M_bind_ok {α β : Type} (x : α) (f : α → M β) :
    (Except.ok x : M α) >>= f = f x := rfl

theorem error_eq {s : Scanner} (h : Inv s) (hst : s.start < s.code.pos)
    (msg : String) (hlp : Option String) :
    ∃ d : Diag,
      s.error msg hlp =
        .ok { s with errors := s.errors + 1, diags := s.diags ++ [d] } ∧
      d.message = msg ∧ d.help = hlp ∧ d.spanStart = s.start ∧
      d.spanEnd = s.current := by
  have hlen : s.positions.length = s.code.pos := h.2.1
  have hne : s.positions.get? s.start ≠ none := by
    simp only [ne_eq, List.get?_eq_none]; omega
  cases hg : s.positions.get? s.start with
  | none => exact absurd hg hne
  | some p =>
      refine ⟨{ message := msg, help := hlp, line := p.1, column := p.2,
                spanStart := s.start, spanEnd := s.current }, ?_, rfl, rfl,
              rfl, rfl⟩
      unfold Scanner.error
      rw [hg]
      rfl

theorem range_eq {s : Scanner} (h : Inv s) (hst : s.start < s.code.pos)
    (hcur : s.current < s.code.pos) :
    ∃ a b : TokenPosition,
      s.range = .ok (a, b) ∧ a.index = s.start ∧ b.index = s.current := by
  have hlen : s.positions.length = s.code.pos := h.2.1
  have h1 : s.positions.get? s.start ≠ none := by
    simp only [ne_eq, List.get?_eq_none]; omega
  have h2 : s.positions.get? s.current ≠ none := by
    simp only [ne_eq, List.get?_eq_none]; omega
  cases hg1 : s.positions.get? s.start with
  | none => exact absurd hg1 h1
  | some p =>
      cases hg2 : s.positions.get? s.current with
      | none => exact absurd hg2 h2
      | some q =>
          refine ⟨{ line := p.1, column := p.2, index := s.start },
                  { line := q.1, column := q.2, index := s.current }, ?_,
                  rfl, rfl⟩
          unfold Scanner.range
          rw [hg1, hg2]
          rfl

theorem addToken_eq {s : Scanner} (h : Inv s) (hst : s.start < s.code.pos)
    (hcur : s.current < s.code.pos) (hsc : s.start ≤ s.current)
    (kind : TokenType) :
    ∃ t : Token,
      s.addToken kind =
        .ok { s with last := kind, tokens := s.tokens ++ [t] } ∧
      t.kind = kind ∧ t.lexeme = padSlice s.code.src s.start s.current ∧
      t.startPos.index = s.start ∧ t.endPos.index = s.current := by
  obtain ⟨a, b, hr, ha, hb⟩ := range_eq h hst hcur
  have hsl := sliceRead_eq h hsc (by omega)
  refine ⟨{ kind := kind, lexeme := padSlice s.code.src s.start s.current,
            startPos := a, endPos := b }, ?_, rfl, rfl, ha, hb⟩
  unfold Scanner.addToken
  rw [hr, M_bind_ok]
  show (s.sliceRead s.start s.current) >>= _ = _
  rw [hsl, M_bind_ok]

theorem addLiteralToken_eq {s : Scanner} (h : Inv s)
    (hst : s.start < s.code.pos) (hcur : s.current < s.code.pos)
    (kind : TokenType) (lit : List Char) :
    ∃ t : Token,
      s.addLiteralToken kind lit = .ok { s with tokens := s.tokens ++ [t] } ∧
      t.kind = kind ∧ t.lexeme = lit ∧
      t.startPos.index = s.start ∧ t.endPos.index = s.current := by
  obtain ⟨a, b, hr, ha, hb⟩ := range_eq h hst hcur
  refine ⟨{ kind := kind, lexeme := lit, startPos := a, endPos := b },
    ?_, rfl, rfl, ha, hb⟩
  unfold Scanner.addLiteralToken
  rw [hr, M_bind_ok]

/-! ## Characterization of the scanning loops -/

theorem ended_false {s : Scanner} (h : Inv s)
    (hc : s.current < s.code.src.length + 2) : s.ended = false := by
  simp only [Scanner.ended, h.2.2.1, decide_eq_false_iff_not]
  omega

theorem padGet_lt {src : List Char} {i : Nat} (h : i < src.length) :
    padGet src i = src[i] := by
  simp [padGet, List.getD, List.getElem?_eq_getElem h]

theorem padGet_ge {src : List Char} {i : Nat} (h : src.length ≤ i) :
    padGet src i = chNul := by
  simp [padGet, List.getD, List.getElem?_eq_none h]

theorem digitLoop_spec (check : Char → Bool) (hχ : check chNul = false)
    (ds : List Char) :
    ∀ fuel s, Inv s → s.current < s.code.pos →
      (s.code.src.drop s.current).takeWhile check = ds →
      ds.length + 1 ≤ fuel →
      digitLoop check fuel s = .ok (advanceN ds.length s) := by
  induction ds with
  | nil =>
      intro fuel s hInv hcp htw hf
      cases fuel with
      | zero => omega
      | succ fuel =>
        have hpk := peek_eq hInv (k := 0) (by omega)
        rw [show s.current + 0 = s.current from rfl] at hpk
        have hcheck : check (padGet s.code.src s.current) = false := by
          by_cases hl : s.current < s.code.src.length
          · have hd := List.drop_eq_getElem_cons hl
            rw [hd, List.takeWhile_cons] at htw
            by_cases hpc : check s.code.src[s.current]
            · rw [if_pos hpc] at htw; exact absurd htw (by simp)
            · rw [padGet_lt hl]
              simpa using hpc
          · rw [padGet_ge (by omega)]; exact hχ
        unfold digitLoop
        rw [hpk]
        simp only [M_bind_ok, hcheck]
        rfl
  | cons d ds ih =>
      intro fuel s hInv hcp htw hf
      cases fuel with
      | zero => omega
      | succ fuel =>
        have hl : s.current < s.code.src.length := by
          by_contra hge
          rw [List.drop_eq_nil_of_le (by omega)] at htw
          exact absurd htw (by simp)
        have hd := List.drop_eq_getElem_cons hl
        rw [hd, List.takeWhile_cons] at htw
        by_cases hpc : check s.code.src[s.current]
        case neg => rw [if_neg hpc] at htw; exact absurd htw (by simp)
        rw [if_pos hpc] at htw
        injection htw with hdval htail
        have hpad : padGet s.code.src s.current = d := by
          rw [padGet_lt hl, hdval]
        have hpk := peek_eq hInv (k := 0) (by omega)
        rw [show s.current + 0 = s.current from rfl, hpad] at hpk
        have hadv := advance_eq hInv
        unfold digitLoop
        rw [hpk]
        have hcd : check d = true := by rw [← hdval]; exact hpc
        simp only [M_bind_ok, hcd, if_true, hadv]
        have sf := stepChar_fields s
        have ih2 := ih fuel (stepChar s) (Inv_stepChar hInv)
          (by rw [sf.2.2.2.2.2.1, sf.2.2.2.1]; omega)
          (by rw [sf.2.2.1, sf.2.2.2.2.2.1]
              have hdrop : s.code.src.drop (s.current + 1) =
                  (s.code.src.drop s.current).tail := by
                rw [hd]; rfl
              rw [hdrop, hd]
              exact htail)
          (by simp at hf ⊢; omega)
        exact ih2

theorem lookBack_stepChar {s : Scanner} (h : Inv s) :
    (stepChar s).lookBack = .ok (padGet s.code.src s.current) := by
  have sf := stepChar_fields s
  unfold Scanner.lookBack
  rw [if_neg (by rw [sf.2.2.2.2.2.1]; omega)]
  have h2 := Inv_stepChar h
  have hc1 : (stepChar s).current - 1 = s.current := by
    rw [sf.2.2.2.2.2.1]
    omega
  rw [hc1]
  have hle := h.2.2.2
  have hx := atIdx_eq h2 (i := s.current)
    (by rw [sf.2.2.2.1]; omega)
  rw [sf.2.2.1] at hx
  exact hx

theorem advanceN_two (s : Scanner) : advanceN 2 s = stepChar (stepChar s) := rfl

theorem findClose_cons (d c : Char) (r : List Char) :
    findClose d (c :: r) =
      if c = d then some 0
      else if c = '\\' then
        (match r with
         | [] => none
         | _ :: r2 => (findClose d r2).map (fun k => k + 2))
      else (findClose d r).map (fun k => k + 1) := by
  cases r <;> rfl

theorem readStringContents_found (d : Char) :
    ∀ fuel k s, Inv s → s.current < s.code.pos →
      findClose d (s.code.src.drop s.current) = some k →
      k + 1 ≤ fuel →
      readStringContents d fuel s = .ok (true, advanceN k s) := by
  intro fuel
  induction fuel with
  | zero => intro k s _ _ _ hf; omega
  | succ fuel ih =>
      intro k s hInv hcp hfc hf
      have hne : s.code.src.drop s.current ≠ [] := by
        intro h0; rw [h0] at hfc; simp [findClose] at hfc
      have hl : s.current < s.code.src.length := by
        by_contra hge
        exact hne (List.drop_eq_nil_of_le (by omega))
      have hd0 := List.drop_eq_getElem_cons hl
      rw [hd0, findClose_cons] at hfc
      have hend : ¬ (s.ended = true) := by
        rw [ended_false hInv (by omega)]; simp
      have hpk := peek_eq hInv (k := 0) (by omega)
      rw [Nat.add_zero, padGet_lt hl] at hpk
      unfold readStringContents
      rw [if_neg hend, hpk]
      simp only [M_bind_ok]
      by_cases hcd : s.code.src[s.current] = d
      · rw [if_pos hcd] at hfc ⊢
        simp only [Option.some.injEq] at hfc
        rw [← hfc]
        rfl
      · rw [if_neg hcd] at hfc ⊢
        rw [advance_eq hInv]
        simp only [M_bind_ok]
        rw [lookBack_stepChar hInv]
        simp only [M_bind_ok, padGet_lt hl]
        by_cases hcb : s.code.src[s.current] = '\\'
        · rw [if_pos hcb] at hfc ⊢
          cases hr : s.code.src.drop (s.current + 1) with
          | nil => rw [hr] at hfc; simp at hfc
          | cons c2 r2 =>
              rw [hr] at hfc
              simp only [Option.map_eq_some'] at hfc
              obtain ⟨k2, hk2, hkk⟩ := hfc
              have hl2 : s.current + 1 < s.code.src.length := by
                by_contra hge
                rw [List.drop_eq_nil_of_le (by omega)] at hr
                exact absurd hr (by simp)
              have s2Inv : Inv (stepChar (stepChar s)) :=
                Inv_stepChar (Inv_stepChar hInv)
              have sf1 := stepChar_fields s
              have sf2 := stepChar_fields (stepChar s)
              rw [advance_eq (Inv_stepChar hInv)]
              simp only [M_bind_ok]
              have hdrop2 : s.code.src.drop (s.current + 2) = r2 := by
                have : s.code.src.drop (s.current + 2) =
                    (s.code.src.drop (s.current + 1)).drop 1 := by
                  rw [List.drop_drop]
                rw [this, hr]
                rfl
              have ih2 := ih k2 (stepChar (stepChar s)) s2Inv
                (by rw [sf2.2.2.2.2.2.1, sf1.2.2.2.2.2.1,
                        sf2.2.2.2.1, sf1.2.2.2.1]; omega)
                (by rw [sf2.2.2.2.2.2.1, sf1.2.2.2.2.2.1,
                        sf2.2.2.1, sf1.2.2.1]
                    rw [show s.current + 1 + 1 = s.current + 2 from rfl, hdrop2]
                    exact hk2)
                (by omega)
              rw [ih2]
              have : advanceN k s = advanceN k2 (stepChar (stepChar s)) := by
                rw [← advanceN_two, ← advanceN_add]
                congr 1
                omega
              rw [this]
        · rw [if_neg hcb] at hfc ⊢
          simp only [Option.map_eq_some'] at hfc
          obtain ⟨k1, hk1, hkk⟩ := hfc
          have sf1 := stepChar_fields s
          have ih2 := ih k1 (stepChar s) (Inv_stepChar hInv)
            (by rw [sf1.2.2.2.2.2.1, sf1.2.2.2.1]; omega)
            (by rw [sf1.2.2.2.2.2.1, sf1.2.2.1]
                have : s.code.src.drop (s.current + 1) =
                    (s.code.src.drop s.current).tail := by rw [hd0]; rfl
                rw [this, hd0]
                exact hk1)
            (by omega)
          rw [ih2]
          have : advanceN k s = advanceN k1 (stepChar s) := by
            have h1 : advanceN 1 s = stepChar s := rfl
            rw [← h1, ← advanceN_add]
            congr 1
            omega
          rw [this]

theorem readStringContents_none (d : Char) (hd : chNul ≠ d) :
    ∀ fuel s, Inv s → s.current < s.code.pos → s.start < s.code.pos →
      findClose d (s.code.src.drop s.current) = none →
      s.size - s.current + 1 ≤ fuel →
      ∃ s', readStringContents d fuel s = .ok (false, s') ∧
        s'.tokens = s.tokens ∧ s'.start = s.start ∧
        s'.errors = s.errors + 1 ∧
        ∃ dg, s'.diags = s.diags ++ [dg] ∧
          dg.message = "Unterminated string" ∧ dg.help = none := by
  intro fuel
  induction fuel with
  | zero => intro s _ _ _ _ hf; omega
  | succ fuel ih =>
      intro s hInv hcp hsp hfc hf
      by_cases hend : s.size ≤ s.current
      · have hendT : s.ended = true := by
          simp only [Scanner.ended, decide_eq_true_iff]; exact hend
        obtain ⟨dg, herr, hm, hh, _, _⟩ :=
          error_eq hInv hsp "Unterminated string" none
        refine ⟨{ s with errors := s.errors + 1, diags := s.diags ++ [dg] },
          ?_, rfl, rfl, rfl, dg, rfl, hm, hh⟩
        unfold readStringContents
        rw [if_pos hendT, herr]
        rfl
      · have hsz : s.current < s.code.src.length + 2 := by
          rw [← hInv.2.2.1]; omega
        have hendF : ¬ (s.ended = true) := by
          rw [ended_false hInv hsz]; simp
        have hpk := peek_eq hInv (k := 0) (by omega)
        rw [Nat.add_zero] at hpk
        have sf1 := stepChar_fields s
        have sNul : ¬ (chNul = '\\') := by decide
        cases hdrop : s.code.src.drop s.current with
        | nil =>
            have hge : s.code.src.length ≤ s.current := by
              by_contra hlt
              have hne : s.code.src.drop s.current ≠ [] := by
                apply List.ne_nil_of_length_pos
                rw [List.length_drop]
                omega
              exact hne hdrop
            rw [padGet_ge hge] at hpk
            obtain ⟨s', hrun, ht, hs, he, dg, hdg, hm, hh⟩ :=
              ih (stepChar s) (Inv_stepChar hInv)
                (by rw [sf1.2.2.2.2.2.1, sf1.2.2.2.1]; omega)
                (by rw [sf1.2.2.2.2.1, sf1.2.2.2.1]; omega)
                (by have hn : s.code.src.drop (s.current + 1) = [] :=
                      List.drop_eq_nil_of_le (by omega)
                    rw [sf1.2.2.1, sf1.2.2.2.2.2.1, hn]
                    rfl)
                (by rw [sf1.2.2.2.2.2.2.1, sf1.2.2.2.2.2.1]; omega)
            refine ⟨s', ?_, by rw [ht, sf1.2.2.2.2.2.2.2.1],
              by rw [hs, sf1.2.2.2.2.1],
              by rw [he, sf1.2.2.2.2.2.2.2.2.2.1], dg,
              by rw [hdg, sf1.2.2.2.2.2.2.2.2.2.2], hm, hh⟩
            unfold readStringContents
            rw [if_neg hendF, hpk]
            simp only [M_bind_ok]
            rw [if_neg hd, advance_eq hInv]
            simp only [M_bind_ok]
            rw [lookBack_stepChar hInv, padGet_ge hge]
            simp only [M_bind_ok]
            rw [if_neg sNul]
            exact hrun
        | cons c r =>
            have hl : s.current < s.code.src.length := by
              by_contra hge
              have hn : s.code.src.drop s.current = [] :=
                List.drop_eq_nil_of_le (by omega)
              rw [hn] at hdrop
              exact absurd hdrop (by simp)
            have hcval : s.code.src[s.current] = c := by
              rw [List.drop_eq_getElem_cons hl] at hdrop
              exact (List.cons.injEq _ _ _ _ ▸ hdrop).1
            have hrval : s.code.src.drop (s.current + 1) = r := by
              rw [List.drop_eq_getElem_cons hl] at hdrop
              exact (List.cons.injEq _ _ _ _ ▸ hdrop).2
            rw [hdrop, findClose_cons] at hfc
            have hcd : ¬ (c = d) := by
              intro hcontra
              rw [if_pos hcontra] at hfc
              exact absurd hfc (by simp)
            rw [if_neg hcd] at hfc
            rw [padGet_lt hl, hcval] at hpk
            by_cases hcb : c = '\\'
            · rw [if_pos hcb] at hfc
              cases hr : r with
              | nil =>
                  have hlen2 : s.code.src.length ≤ s.current + 1 := by
                    by_contra hlt
                    have hne : s.code.src.drop (s.current + 1) ≠ [] := by
                      apply List.ne_nil_of_length_pos
                      rw [List.length_drop]
                      omega
                    rw [hrval, hr] at hne
                    exact hne rfl
                  obtain ⟨s', hrun, ht, hs, he, dg, hdg, hm, hh⟩ :=
                    ih (stepChar (stepChar s))
                      (Inv_stepChar (Inv_stepChar hInv))
                      (by have sf2 := stepChar_fields (stepChar s)
                          rw [sf2.2.2.2.2.2.1, sf1.2.2.2.2.2.1,
                              sf2.2.2.2.1, sf1.2.2.2.1]; omega)
                      (by have sf2 := stepChar_fields (stepChar s)
                          rw [sf2.2.2.2.2.1, sf1.2.2.2.2.1,
                              sf2.2.2.2.1, sf1.2.2.2.1]; omega)
                      (by have sf2 := stepChar_fields (stepChar s)
                          have hn : s.code.src.drop (s.current + 1 + 1) = [] :=
                            List.drop_eq_nil_of_le (by omega)
                          rw [sf2.2.2.1, sf1.2.2.1, sf2.2.2.2.2.2.1,
                              sf1.2.2.2.2.2.1, hn]
                          rfl)
                      (by have sf2 := stepChar_fields (stepChar s)
                          rw [sf2.2.2.2.2.2.2.1, sf1.2.2.2.2.2.2.1,
                              sf2.2.2.2.2.2.1, sf1.2.2.2.2.2.1]; omega)
                  have sf2 := stepChar_fields (stepChar s)
                  refine ⟨s', ?_,
                    by rw [ht, sf2.2.2.2.2.2.2.2.1, sf1.2.2.2.2.2.2.2.1],
                    by rw [hs, sf2.2.2.2.2.1, sf1.2.2.2.2.1],
                    by rw [he, sf2.2.2.2.2.2.2.2.2.2.1,
                           sf1.2.2.2.2.2.2.2.2.2.1], dg,
                    by rw [hdg, sf2.2.2.2.2.2.2.2.2.2.2,
                           sf1.2.2.2.2.2.2.2.2.2.2], hm, hh⟩
                  unfold readStringContents
                  rw [if_neg hendF, hpk]
                  simp only [M_bind_ok]
                  rw [if_neg hcd, advance_eq hInv]
                  simp only [M_bind_ok]
                  rw [lookBack_stepChar hInv, padGet_lt hl, hcval]
                  simp only [M_bind_ok]
                  rw [if_pos hcb, advance_eq (Inv_stepChar hInv)]
                  simp only [M_bind_ok]
                  exact hrun
              | cons c2 r2 =>
                  rw [hr] at hfc
                  have hfc2 : findClose d r2 = none := by
                    have hfcM : (findClose d r2).map (fun k => k + 2) = none := hfc
                    cases hx : findClose d r2 with
                    | none => rfl
                    | some v => rw [hx] at hfcM; exact absurd hfcM (by simp)
                  have hlen2 : s.current + 1 < s.code.src.length := by
                    by_contra hge
                    rw [List.drop_eq_nil_of_le (by omega)] at hrval
                    rw [hr] at hrval
                    exact absurd hrval (by simp)
                  have hdrop2 : s.code.src.drop (s.current + 2) = r2 := by
                    have hstep : s.code.src.drop (s.current + 2) =
                        (s.code.src.drop (s.current + 1)).drop 1 := by
                      rw [List.drop_drop]
                    rw [hstep, hrval, hr]
                    rfl
                  obtain ⟨s', hrun, ht, hs, he, dg, hdg, hm, hh⟩ :=
                    ih (stepChar (stepChar s))
                      (Inv_stepChar (Inv_stepChar hInv))
                      (by have sf2 := stepChar_fields (stepChar s)
                          rw [sf2.2.2.2.2.2.1, sf1.2.2.2.2.2.1,
                              sf2.2.2.2.1, sf1.2.2.2.1]; omega)
                      (by have sf2 := stepChar_fields (stepChar s)
                          rw [sf2.2.2.2.2.1, sf1.2.2.2.2.1,
                              sf2.2.2.2.1, sf1.2.2.2.1]; omega)
                      (by have sf2 := stepChar_fields (stepChar s)
                          rw [sf2.2.2.1, sf1.2.2.1, sf2.2.2.2.2.2.1,
                              sf1.2.2.2.2.2.1]
                          rw [show s.current + 1 + 1 = s.current + 2 from rfl,
                              hdrop2]
                          exact hfc2)
                      (by have sf2 := stepChar_fields (stepChar s)
                          rw [sf2.2.2.2.2.2.2.1, sf1.2.2.2.2.2.2.1,
                              sf2.2.2.2.2.2.1, sf1.2.2.2.2.2.1]; omega)
                  have sf2 := stepChar_fields (stepChar s)
                  refine ⟨s', ?_,
                    by rw [ht, sf2.2.2.2.2.2.2.2.1, sf1.2.2.2.2.2.2.2.1],
                    by rw [hs, sf2.2.2.2.2.1, sf1.2.2.2.2.1],
                    by rw [he, sf2.2.2.2.2.2.2.2.2.2.1,
                           sf1.2.2.2.2.2.2.2.2.2.1], dg,
                    by rw [hdg, sf2.2.2.2.2.2.2.2.2.2.2,
                           sf1.2.2.2.2.2.2.2.2.2.2], hm, hh⟩
                  unfold readStringContents
                  rw [if_neg hendF, hpk]
                  simp only [M_bind_ok]
                  rw [if_neg hcd, advance_eq hInv]
                  simp only [M_bind_ok]
                  rw [lookBack_stepChar hInv, padGet_lt hl, hcval]
                  simp only [M_bind_ok]
                  rw [if_pos hcb, advance_eq (Inv_stepChar hInv)]
                  simp only [M_bind_ok]
                  exact hrun
            · rw [if_neg hcb] at hfc
              have hfc1 : findClose d r = none := by
                cases hx : findClose d r with
                | none => rfl
                | some v => rw [hx] at hfc; exact absurd hfc (by simp)
              obtain ⟨s', hrun, ht, hs, he, dg, hdg, hm, hh⟩ :=
                ih (stepChar s) (Inv_stepChar hInv)
                  (by rw [sf1.2.2.2.2.2.1, sf1.2.2.2.1]; omega)
                  (by rw [sf1.2.2.2.2.1, sf1.2.2.2.1]; omega)
                  (by rw [sf1.2.2.1, sf1.2.2.2.2.2.1, hrval]; exact hfc1)
                  (by rw [sf1.2.2.2.2.2.2.1, sf1.2.2.2.2.2.1]; omega)
              refine ⟨s', ?_, by rw [ht, sf1.2.2.2.2.2.2.2.1],
                by rw [hs, sf1.2.2.2.2.1],
                by rw [he, sf1.2.2.2.2.2.2.2.2.2.1], dg,
                by rw [hdg, sf1.2.2.2.2.2.2.2.2.2.2], hm, hh⟩
              unfold readStringContents
              rw [if_neg hendF, hpk]
              simp only [M_bind_ok]
              rw [if_neg hcd, advance_eq hInv]
              simp only [M_bind_ok]
              rw [lookBack_stepChar hInv, padGet_lt hl, hcval]
              simp only [M_bind_ok]
              rw [if_neg hcb]
              exact hrun

/-! ## Pure lemmas about the raw-string bracket level -/

theorem leadMatch_length {pat l : List Char} (h : leadMatch pat l = true) :
    pat.length ≤ l.length := by
  induction pat generalizing l with
  | nil => simp
  | cons p ps ih =>
      cases l with
      | nil => simp [leadMatch] at h
      | cons c cs =>
          simp only [leadMatch, Bool.and_eq_true] at h
          have := ih h.2
          simp only [List.length_cons]
          omega

theorem occursIn_length {pat l : List Char} (h : occursIn pat l = true) :
    pat.length ≤ l.length := by
  induction l with
  | nil => exact leadMatch_length h
  | cons c cs ih =>
      simp only [occursIn, Bool.or_eq_true] at h
      rcases h with h | h
      · exact leadMatch_length h
      · have := ih h
        simp only [List.length_cons]
        omega

theorem bracketPat_length (k : Nat) : (bracketPat k).length = k + 2 := by
  simp [bracketPat]

theorem occursIn_big {lit : List Char} {k : Nat} (h : lit.length < k + 2) :
    occursIn (bracketPat k) lit = false := by
  by_contra hx
  have := occursIn_length (by simpa using hx)
  rw [bracketPat_length] at this
  omega

theorem bracketsLoop_step (lit : List Char) (fuel k : Nat) :
    bracketsLoop lit (fuel + 1) true k = bracketsLoop lit fuel false (k + 1) := by
  simp [bracketsLoop]

theorem bracketsLoop_false_spec (lit : List Char) :
    ∀ fuel k, (∃ j, j < fuel ∧ occursIn (bracketPat (k + j)) lit = false) →
      occursIn (bracketPat (bracketsLoop lit fuel false k)) lit = false ∧
      k ≤ bracketsLoop lit fuel false k ∧
      ∀ m, k ≤ m → m < bracketsLoop lit fuel false k →
        occursIn (bracketPat m) lit = true := by
  intro fuel
  induction fuel with
  | zero =>
      intro k hex
      obtain ⟨j, hj, _⟩ := hex
      omega
  | succ fuel ih =>
      intro k hex
      obtain ⟨j, hj, hocc⟩ := hex
      by_cases hk : occursIn (bracketPat k) lit = true
      · have hstep : bracketsLoop lit (fuel + 1) false k =
            bracketsLoop lit fuel false (k + 1) := by
          simp [bracketsLoop, hk]
        have hex2 : ∃ j2, j2 < fuel ∧
            occursIn (bracketPat (k + 1 + j2)) lit = false := by
          cases j with
          | zero => rw [Nat.add_zero] at hocc; rw [hocc] at hk; cases hk
          | succ j =>
              refine ⟨j, by omega, ?_⟩
              rw [show k + 1 + j = k + (j + 1) by omega]
              exact hocc
        obtain ⟨h1, h2, h3⟩ := ih (k + 1) hex2
        rw [hstep]
        refine ⟨h1, by omega, ?_⟩
        intro m hm1 hm2
        rcases Nat.eq_or_lt_of_le hm1 with hEq | hLt
        · rw [← hEq]; exact hk
        · exact h3 m hLt hm2
      · have hkf : occursIn (bracketPat k) lit = false := by
          simpa using hk
        have hstep : bracketsLoop lit (fuel + 1) false k = k := by
          simp [bracketsLoop, hkf]
        rw [hstep]
        exact ⟨hkf, Nat.le_refl k, by omega⟩

theorem rawLevel_spec (lit : List Char) :
    occursIn (bracketPat (bracketsLoop lit (lit.length + 2) (endsWithRB lit) 0))
        lit = false ∧
    (endsWithRB lit = true →
      1 ≤ bracketsLoop lit (lit.length + 2) (endsWithRB lit) 0) ∧
    (∀ m, m < bracketsLoop lit (lit.length + 2) (endsWithRB lit) 0 →
      occursIn (bracketPat m) lit = true ∨
        (endsWithRB lit = true ∧ m = 0)) := by
  cases hew : endsWithRB lit with
  | false =>
      obtain ⟨h1, h2, h3⟩ := bracketsLoop_false_spec lit (lit.length + 2) 0
        ⟨lit.length, by omega, occursIn_big (by omega)⟩
      refine ⟨h1, ?_, ?_⟩
      · intro hcontra; exact absurd hcontra (by simp)
      · intro m hm
        exact Or.inl (h3 m (Nat.zero_le m) hm)
  | true =>
      rw [bracketsLoop_step]
      obtain ⟨h1, h2, h3⟩ := bracketsLoop_false_spec lit (lit.length + 1) 1
        ⟨lit.length, by omega, occursIn_big (by omega)⟩
      refine ⟨h1, fun _ => h2, ?_⟩
      intro m hm
      cases m with
      | zero => exact Or.inr ⟨rfl, rfl⟩
      | succ m => exact Or.inl (h3 (m + 1) (by omega) hm)

theorem replaceEsc_ne_nil (c : Char) (l : List Char) :
    replaceEsc (c :: l) ≠ [] := by
  cases l with
  | nil => simp [replaceEsc]
  | cons c2 rest =>
      unfold replaceEsc
      by_cases hp : c = '\\' ∧ c2 = chTick
      · rw [if_pos hp]; simp
      · rw [if_neg hp]; simp

/-- The characters the raw-string escape replacement can touch never appear
in a bracket collision pattern. -/
def patClean (pat : List Char) : Prop :=
  ∀ x ∈ pat, ¬ x = '\\' ∧ ¬ x = chTick

theorem bracketPat_clean (k : Nat) : patClean (bracketPat k) := by
  intro x hx
  have hxe : x = ']' ∨ x = '=' := by
    simp only [bracketPat, List.mem_cons, List.mem_append,
      List.mem_replicate, List.mem_singleton] at hx
    tauto
  rcases hxe with h | h <;> rw [h] <;> exact ⟨by decide, by decide⟩

theorem replaceEsc_pair (c c2 : Char) (rest : List Char)
    (hp : c = '\\' ∧ c2 = chTick) :
    replaceEsc (c :: c2 :: rest) = chTick :: replaceEsc rest := by
  simp only [replaceEsc, if_pos hp]

theorem replaceEsc_nopair (c c2 : Char) (rest : List Char)
    (hp : ¬ (c = '\\' ∧ c2 = chTick)) :
    replaceEsc (c :: c2 :: rest) = c :: replaceEsc (c2 :: rest) := by
  simp only [replaceEsc, if_neg hp]

theorem leadMatch_cons_false {p : Char} (ps : List Char) {c : Char}
    (h : ¬ p = c) (l : List Char) : leadMatch (p :: ps) (c :: l) = false := by
  simp only [leadMatch]
  rw [show (p == c) = false from by simpa using h]
  rfl

theorem leadMatch_replaceEsc :
    ∀ m pat, pat ≠ [] → patClean pat →
      leadMatch pat (replaceEsc m) = leadMatch pat m := by
  intro m
  induction m using replaceEsc.induct with
  | case1 => intro pat _ _; rfl
  | case2 c => intro pat _ _; rfl
  | case3 c c2 rest hp ih =>
      intro pat hne hcl
      obtain ⟨hc, hc2⟩ := hp
      subst hc
      subst hc2
      cases pat with
      | nil => exact absurd rfl hne
      | cons p ps =>
          have hp1 : ¬ p = '\\' := (hcl p (by simp)).1
          have hp2 : ¬ p = chTick := (hcl p (by simp)).2
          rw [replaceEsc_pair _ _ rest ⟨rfl, rfl⟩]
          rw [leadMatch_cons_false ps hp2, leadMatch_cons_false ps hp1]
  | case4 c c2 rest hp ih =>
      intro pat hne hcl
      cases pat with
      | nil => exact absurd rfl hne
      | cons p ps =>
          rw [replaceEsc_nopair c c2 rest hp]
          simp only [leadMatch]
          cases ps with
          | nil => rfl
          | cons q qs =>
              rw [ih (q :: qs) (by simp)
                (fun x hx => hcl x (List.mem_cons_of_mem p hx))]

theorem occursIn_replaceEsc :
    ∀ m pat, pat ≠ [] → patClean pat →
      occursIn pat (replaceEsc m) = occursIn pat m := by
  intro m
  induction m using replaceEsc.induct with
  | case1 => intro pat _ _; rfl
  | case2 c => intro pat _ _; rfl
  | case3 c c2 rest hp ih =>
      intro pat hne hcl
      obtain ⟨hc, hc2⟩ := hp
      subst hc
      subst hc2
      cases pat with
      | nil => exact absurd rfl hne
      | cons p ps =>
          have hp1 : ¬ p = '\\' := (hcl p (by simp)).1
          have hp2 : ¬ p = chTick := (hcl p (by simp)).2
          rw [replaceEsc_pair _ _ rest ⟨rfl, rfl⟩]
          show (leadMatch (p :: ps) (chTick :: replaceEsc rest) ||
            occursIn (p :: ps) (replaceEsc rest)) = _
          rw [leadMatch_cons_false ps hp2, ih (p :: ps) hne hcl]
          show occursIn (p :: ps) rest = _
          show _ = (leadMatch (p :: ps) ('\\' :: chTick :: rest) ||
            (leadMatch (p :: ps) (chTick :: rest) || occursIn (p :: ps) rest))
          rw [leadMatch_cons_false ps hp1, leadMatch_cons_false ps hp2]
          rfl
  | case4 c c2 rest hp ih =>
      intro pat hne hcl
      cases pat with
      | nil => exact absurd rfl hne
      | cons p ps =>
          rw [replaceEsc_nopair c c2 rest hp]
          show (leadMatch (p :: ps) (c :: replaceEsc (c2 :: rest)) ||
            occursIn (p :: ps) (replaceEsc (c2 :: rest))) = _
          rw [ih (p :: ps) hne hcl]
          have hlead : leadMatch (p :: ps) (c :: replaceEsc (c2 :: rest)) =
              leadMatch (p :: ps) (c :: c2 :: rest) := by
            show (p == c && leadMatch ps (replaceEsc (c2 :: rest))) =
              (p == c && leadMatch ps (c2 :: rest))
            cases ps with
            | nil => rfl
            | cons q qs =>
                rw [leadMatch_replaceEsc (c2 :: rest) (q :: qs) (by simp)
                  (fun x hx => hcl x (List.mem_cons_of_mem p hx))]
          rw [hlead]
          rfl

theorem endsWithRB_cons_cons (a b : Char) (l : List Char) :
    endsWithRB (a :: b :: l) = endsWithRB (b :: l) := by
  simp only [endsWithRB, List.getLast?_cons_cons]

theorem endsWithRB_replaceEsc :
    ∀ m, endsWithRB (replaceEsc m) = endsWithRB m := by
  intro m
  induction m using replaceEsc.induct with
  | case1 => rfl
  | case2 c => rfl
  | case3 c c2 rest hp ih =>
      obtain ⟨hc, hc2⟩ := hp
      subst hc
      subst hc2
      rw [replaceEsc_pair _ _ rest ⟨rfl, rfl⟩]
      cases hr : rest with
      | nil =>
          show endsWithRB [chTick] = endsWithRB ['\\', chTick]
          decide
      | cons y ys =>
          cases hre : replaceEsc (y :: ys) with
          | nil => exact absurd hre (replaceEsc_ne_nil y ys)
          | cons z zs =>
              rw [← hre]
              have e1 : endsWithRB (chTick :: replaceEsc (y :: ys)) =
                  endsWithRB (replaceEsc (y :: ys)) := by
                rw [hre]
                exact endsWithRB_cons_cons chTick z zs
              have e2 : endsWithRB ('\\' :: chTick :: y :: ys) =
                  endsWithRB (y :: ys) := by
                rw [endsWithRB_cons_cons, endsWithRB_cons_cons]
              rw [e1, e2, ← hr]
              exact ih
  | case4 c c2 rest hp ih =>
      rw [replaceEsc_nopair c c2 rest hp]
      cases hre : replaceEsc (c2 :: rest) with
      | nil => exact absurd hre (replaceEsc_ne_nil c2 rest)
      | cons z zs =>
          rw [← hre]
          have e1 : endsWithRB (c :: replaceEsc (c2 :: rest)) =
              endsWithRB (replaceEsc (c2 :: rest)) := by
            rw [hre]
            exact endsWithRB_cons_cons c z zs
          have e2 : endsWithRB (c :: c2 :: rest) = endsWithRB (c2 :: rest) :=
            endsWithRB_cons_cons c c2 rest
          rw [e1, e2]
          exact ih

theorem findClose_lt_aux (d : Char) :
    ∀ (n : Nat) (l : List Char) (k : Nat), l.length ≤ n →
      findClose d l = some k → k < l.length := by
  intro n
  induction n with
  | zero =>
      intro l k hlen h
      cases l with
      | nil => simp [findClose] at h
      | cons c r => simp at hlen
  | succ n ih =>
      intro l k hlen h
      cases l with
      | nil => simp [findClose] at h
      | cons c r =>
          rw [findClose_cons] at h
          by_cases hcd : c = d
          · rw [if_pos hcd] at h
            simp only [Option.some.injEq] at h
            simp [← h]
          · rw [if_neg hcd] at h
            by_cases hcb : c = '\\'
            · rw [if_pos hcb] at h
              cases hr : r with
              | nil => rw [hr] at h; simp at h
              | cons c2 r2 =>
                  rw [hr] at h
                  have hM : (findClose d r2).map (fun k => k + 2) = some k := h
                  simp only [Option.map_eq_some'] at hM
                  obtain ⟨k2, hk2, hkk⟩ := hM
                  have hlt := ih r2 k2
                    (by rw [hr] at hlen; simp at hlen ⊢; omega) hk2
                  simp only [List.length_cons]
                  omega
            · rw [if_neg hcb] at h
              simp only [Option.map_eq_some'] at h
              obtain ⟨k1, hk1, hkk⟩ := h
              have hlt := ih r k1 (by simp at hlen; omega) hk1
              simp only [List.length_cons]
              omega

theorem findClose_lt {d : Char} {l : List Char} {k : Nat}
    (h : findClose d l = some k) : k < l.length :=
  findClose_lt_aux d l.length l k (Nat.le_refl _) h

theorem padSlice_append (src : List Char) {a b c : Nat} (hab : a ≤ b)
    (hbc : b ≤ c) :
    padSlice src a c = padSlice src a b ++ padSlice src b c := by
  unfold padSlice
  rw [← List.map_append]
  congr 1
  have h1 : c - a = (c - b) + (b - a) := by omega
  have h2 := List.range'_append_1 a (b - a) (c - b)
  rw [show a + (b - a) = b by omega] at h2
  rw [h1, ← h2]

theorem padSlice_drop_take (src : List Char) {a b : Nat} (hab : a ≤ b)
    (hb : b ≤ src.length) :
    padSlice src a b = (src.drop a).take (b - a) := by
  apply List.ext_getElem?
  intro i
  by_cases hi : i < b - a
  · have h1 : (padSlice src a b)[i]? = some (padGet src (a + i)) := by
      simp [padSlice, hi]
    rw [h1, List.getElem?_take, if_pos hi, List.getElem?_drop]
    have h2 : a + i < src.length := by omega
    rw [List.getElem?_eq_getElem h2]
    rw [padGet_lt h2]
  · have h4 : (padSlice src a b).length = b - a := by simp [padSlice]
    have h5 : ((src.drop a).take (b - a)).length ≤ b - a := by
      simp [List.length_take]
    rw [List.getElem?_eq_none (by omega), List.getElem?_eq_none (by omega)]

theorem takeWhile_all {p : Char → Bool} :
    ∀ {l : List Char}, (∀ c ∈ l, p c = true) → l.takeWhile p = l := by
  intro l
  induction l with
  | nil => intro _; rfl
  | cons c cs ih =>
      intro h
      rw [List.takeWhile_cons, if_pos (h c (by simp))]
      rw [ih (fun x hx => h x (by simp [hx]))]

theorem drop_eq_imp_length {src ds : List Char} {n : Nat}
    (h : src.drop n = ds) (hne : ds ≠ []) : src.length = n + ds.length := by
  have h1 : (src.drop n).length = ds.length := by rw [h]
  rw [List.length_drop] at h1
  have h2 : n < src.length := by
    by_contra hge
    rw [List.drop_eq_nil_of_le (by omega)] at h
    exact hne h.symm
  omega

theorem padSlice_of_drop {src ds : List Char} {n : Nat}
    (h : src.drop n = ds) (hne : ds ≠ []) :
    padSlice src n (n + ds.length) = ds := by
  have hlen := drop_eq_imp_length h hne
  rw [padSlice_drop_take src (by omega) (by omega), h]
  simp

theorem pushNext_len (s : Scanner) :
    s.pushNext.read.length = s.read.length + 1 := by
  rw [(pushNext_fields s).1]
  simp

/-! ## The claims -/

/-- C10: each safe-navigation token kind's numeric tag equals its non-safe
counterpart's tag plus 6: `SAFE_CALL = ROUND_BRACKET_OPEN + 6`,
`SAFE_SQUARE_BRACKET = SQUARE_BRACKET_OPEN + 6`, `SAFE_DOT = DOT + 6`, and
`SAFE_DOUBLE_COLON = DOUBLE_COLON + 6`. -/
theorem C10_safe_tag_offset :
    TokenType.tag SAFE_CALL = TokenType.tag ROUND_BRACKET_OPEN + 6 ∧
    TokenType.tag SAFE_SQUARE_BRACKET = TokenType.tag SQUARE_BRACKET_OPEN + 6 ∧
    TokenType.tag SAFE_DOT = TokenType.tag DOT + 6 ∧
    TokenType.tag SAFE_DOUBLE_COLON = TokenType.tag DOUBLE_COLON + 6 := by
  refine ⟨rfl, rfl, rfl, rfl⟩

/-- C2: the claim says `0x1A`, `0b101` and `1e-3` each scan to one NUMBER
token; in fact the scanner's buffer accesses go out of bounds on all three
inputs (the hex/binary prefix skip `current += 1` adds no buffer slot, so the
suffix slice `read[current..current+2]` overruns; for `1e-3`, `peek(2)` reads
`read[current+2]` with only `current+2` slots filled), a Rust panic.  Scanning
`1e` records the Malformed-number diagnostic as claimed (and still emits a
NUMBER token `1e`). -/
theorem C2_number_examples :
    scanCode "0x1A".toList = .error .oob ∧
    scanCode "0b101".toList = .error .oob ∧
    scanCode "1e-3".toList = .error .oob ∧
    scanKinds "1e" = .ok [NUMBER, EOF] ∧
    scanLexemes "1e" = .ok ["1e", "<end>"] ∧
    scanMsgs "1e" = .ok ["Malformed number"] := by
  refine ⟨rfl, rfl, rfl, rfl, rfl, rfl⟩

/-- C3: the claim's invariant `read.len() == current + 2` holds after
`ScannerInfo::new` (first conjunct), but it is not maintained by `scan_code`:
the hex/binary prefix skip increments `current` without pushing a character,
and the trie rollback decrements it, so the offset between `read.len()` and
`current` drifts.  Moreover even where the stated invariant holds, `peek(2)`
reads `read[current+2] = read[read.len()]`, out of bounds.  Consequently the
out-of-bounds branch is reachable: scanning `1e-3` (via `peek(2)`) and
`0x1A` (via the suffix slice) aborts with an out-of-bounds access. -/
theorem C3_buffer_invariant :
    (∀ input : List Char,
      (Scanner.new input).read.length = (Scanner.new input).current + 2 ∧
      (Scanner.new input).positions.length = (Scanner.new input).current + 2) ∧
    scanCode "1e-3".toList = .error .oob ∧
    scanCode "0x1A".toList = .error .oob := by
  refine ⟨?_, rfl, rfl⟩
  intro input
  constructor
  · show ((Scanner.new input).read).length = _
    unfold Scanner.new
    simp only []
    rw [pushNext_len, pushNext_len]
    rw [(pushNext_fields _).2.2.2.2.2.1, (pushNext_fields _).2.2.2.2.2.1]
    rfl
  · show ((Scanner.new input).positions).length = _
    unfold Scanner.new
    simp only []
    rw [(pushNext_fields _).2.1, (pushNext_fields _).2.1]
    rw [(pushNext_fields _).2.2.2.2.2.1, (pushNext_fields _).2.2.2.2.2.1]
    rfl

/-- C1 counterexample: the claim says that after a member-access operator any
keyword of any class is demoted to IDENTIFIER with no diagnostic.  The
keyword-resolution match tests the `Lua` and `Reserved` arms before the
member-access guard, so `a.if` scans to an IF token (not IDENTIFIER), and
`a.and` records a reserved-keyword diagnostic. -/
theorem C1_counterexample :
    scanKinds "a.if" = .ok [IDENTIFIER, DOT, IF, EOF] ∧
    IF ≠ IDENTIFIER ∧
    scanMsgs "a.if" = .ok [] ∧
    scanKinds "a.and" = .ok [IDENTIFIER, DOT, IDENTIFIER, EOF] ∧
    (scanCode "a.and".toList).map (fun s => s.errors) = .ok 1 := by
  refine ⟨rfl, by decide, rfl, rfl, rfl⟩

/-- C1 amended: the member-access context override applies only to the
native (`Just`) and reserved-future (`Error`) keyword classes: when the
previously emitted kind is DOT, SAFE_DOT, DOUBLE_COLON or SAFE_DOUBLE_COLON,
an identifier whose text maps to a `Just` or `Error` keyword is classified as
a plain IDENTIFIER with the scanner state unchanged (no diagnostic recorded);
`Lua` keywords still map to their keyword kind and `Reserved` keywords still
record a diagnostic (shown by the counterexample). -/
theorem C1_keyword_suppression_amended :
    ∀ (s : Scanner) (ident : List Char),
      isAccessTok s.last = true →
      ((∃ k, keywordsLookup ident = some (KeywordType.Just k)) ∨
        (∃ e, keywordsLookup ident = some (KeywordType.Error e))) →
      identKind s ident = .ok (IDENTIFIER, s) := by
  intro s ident hacc hkw
  rcases hkw with ⟨k, hk⟩ | ⟨e, he⟩
  · unfold identKind
    rw [hk]
    simp [hacc]
  · unfold identKind
    rw [he]
    simp [hacc]

/-- C1 amended, witness: the native keyword `fn` after a DOT is classified as
IDENTIFIER with no state change. -/
theorem C1_keyword_suppression_witness :
    identKind { Scanner.new [] with last := DOT } "fn".toList =
      .ok (IDENTIFIER, { Scanner.new [] with last := DOT }) :=
  C1_keyword_suppression_amended { Scanner.new [] with last := DOT }
    "fn".toList (by decide) (Or.inl ⟨FN, rfl⟩)

/-- C4 counterexample: the claim says hex/binary numerals scan no fractional
part.  The fractional-part block of `read_number` is not guarded by the
`simple` flag, so (in a context where the lookahead buffer is long enough to
avoid the out-of-bounds crash, here after a `..` rollback) `0x1.2` scans as a
single NUMBER token whose lexeme contains the fractional part `.2`, scanned
with the hexadecimal digit class. -/
theorem C4_counterexample :
    scanKinds ".. 0x1.2" = .ok [TWODOTS, NUMBER, EOF] ∧
    scanLexemes ".. 0x1.2" = .ok ["..", "0x1.2", "<end>"] ∧
    scanMsgs ".. 0x1.2" = .ok [] ∧
    occursIn ".2".toList "0x1.2".toList = true := by
  refine ⟨rfl, rfl, rfl, rfl⟩

/-- C5 counterexample: for content `a]=]b` the substring `]]` (bracket level
0) does not occur, so the minimal level is 0 and the scanner emits
`[[a]=]b]]` — not level 2 / `[==[a]=]b]==]` as the claim's example states. -/
theorem C5_counterexample :
    rawWrap "a]=]b".toList = "[[a]=]b]]".toList ∧
    occursIn (bracketPat 0) "a]=]b".toList = false ∧
    rawWrap "a]=]b".toList ≠ "[==[a]=]b]==]".toList ∧
    scanLexemes "`a]=]b`" = .ok ["[[a]=]b]]", "<end>"] := by
  refine ⟨rfl, rfl, by decide, rfl⟩

/-- C8 counterexample: the claim says the malformed `UL` suffix path leaves
partially consumed suffix characters in the NUMBER lexeme.  The `UL` match is
pure lookahead (`&read[current..current+2]`); on the error path nothing is
consumed, the NUMBER lexeme is `1` without any suffix character, and `UL` is
subsequently rescanned as an IDENTIFIER token. -/
theorem C8_counterexample :
    scanKinds "..1UL;" =
      .ok [TWODOTS, NUMBER, IDENTIFIER, SEMICOLON, EOF] ∧
    scanLexemes "..1UL;" = .ok ["..", "1", "UL", ";", "<end>"] ∧
    scanMsgs "..1UL;" = .ok ["Malformed number"] ∧
    ("1" : String) ≠ "1UL" := by
  refine ⟨rfl, rfl, rfl, by decide⟩

theorem Inv_setCurrent {s : Scanner} (h : Inv s) {c : Nat}
    (hc : c ≤ s.code.pos) : Inv { s with current := c } :=
  ⟨h.1, h.2.1, h.2.2.1, hc⟩

/-- C6: on a `Branch` (`SymbolType::Symbols`) entry, `scan_char` consumes
exactly one further character before testing the nested table (the result's
buffer has grown by one slot), and when the nested table has no entry for
that character it rolls exactly that one character back (the cursor is back
to its value at entry) and emits a token of the branch's default kind.  The
concrete conjuncts check the claim's examples: `?.` → SAFE_DOT, `??=` →
DEFINE_COALESCE, `?(` → SAFE_CALL, and `?` at end of input → QUESTION_MARK. -/
theorem C6_trie_branch :
    (∀ (fuel : Nat) (m msub : List (Char × SymbolType)) (c : Char)
        (d : TokenType) (s : Scanner),
      Inv s → s.start < s.current →
      lookupSym m c = some (SymbolType.Symbols msub d) →
      lookupSym msub (padGet s.code.src s.current) = none →
      ∃ s' t, scanChar (fuel + 2) m c s = .ok (true, s') ∧
        s'.tokens = s.tokens ++ [t] ∧ t.kind = d ∧
        s'.current = s.current ∧
        s'.read.length = s.read.length + 1 ∧
        s'.errors = s.errors ∧ s'.diags = s.diags) ∧
    scanKinds "?." = .ok [SAFE_DOT, EOF] ∧
    scanKinds "??=" = .ok [DEFINE_COALESCE, EOF] ∧
    scanKinds "?(" = .ok [SAFE_CALL, EOF] ∧
    scanKinds "?" = .ok [QUESTION_MARK, EOF] := by
  refine ⟨?_, rfl, rfl, rfl, rfl⟩
  intro fuel m msub c d s hInv hsc hm hsub
  have hadv := advance_eq hInv
  have sf := stepChar_fields s
  have hle := hInv.2.2.2
  have hinner : scanChar (fuel + 1) msub (padGet s.code.src s.current)
      (stepChar s) = .ok (false, stepChar s) := by
    unfold scanChar
    rw [hsub]
  have hcur3 : (stepChar s).current - 1 = s.current := by
    rw [sf.2.2.2.2.2.1]
    omega
  have hInv3 : Inv { stepChar s with current := (stepChar s).current - 1 } := by
    apply Inv_setCurrent (Inv_stepChar hInv)
    rw [hcur3, sf.2.2.2.1]
    omega
  have hst3 : ({ stepChar s with current := (stepChar s).current - 1
      } : Scanner).start < ({ stepChar s with
      current := (stepChar s).current - 1 } : Scanner).code.pos := by
    show (stepChar s).start < (stepChar s).code.pos
    rw [sf.2.2.2.2.1, sf.2.2.2.1]
    omega
  have hcur3b : ({ stepChar s with current := (stepChar s).current - 1
      } : Scanner).current < ({ stepChar s with
      current := (stepChar s).current - 1 } : Scanner).code.pos := by
    show (stepChar s).current - 1 < (stepChar s).code.pos
    rw [hcur3, sf.2.2.2.1]
    omega
  have hsc3 : ({ stepChar s with current := (stepChar s).current - 1
      } : Scanner).start ≤ ({ stepChar s with
      current := (stepChar s).current - 1 } : Scanner).current := by
    show (stepChar s).start ≤ (stepChar s).current - 1
    rw [sf.2.2.2.2.1, hcur3]
    omega
  obtain ⟨t, hAdd, htk, htl, hts, hte⟩ := addToken_eq hInv3 hst3 hcur3b hsc3 d
  have hrun : scanChar (fuel + 1 + 1) m c s =
      .ok (true, { { stepChar s with current := (stepChar s).current - 1 } with
        last := d,
        tokens := ({ stepChar s with
          current := (stepChar s).current - 1 } : Scanner).tokens ++ [t] }) := by
    unfold scanChar
    rw [hm, hadv]
    simp only [M_bind_ok]
    rw [hinner]
    simp only [M_bind_ok, Bool.false_eq_true, if_false]
    rw [hAdd]
    simp only [M_bind_ok]
  refine ⟨_, t, hrun, ?_, htk, ?_, ?_, ?_, ?_⟩
  · show ({ stepChar s with current := (stepChar s).current - 1 } : Scanner
      ).tokens ++ [t] = s.tokens ++ [t]
    rw [show ({ stepChar s with current := (stepChar s).current - 1 } : Scanner
      ).tokens = (stepChar s).tokens from rfl, sf.2.2.2.2.2.2.2.1]
  · show ({ stepChar s with current := (stepChar s).current - 1 } : Scanner
      ).current = s.current
    exact hcur3
  · show (stepChar s).read.length = s.read.length + 1
    rw [sf.1]
    simp
  · exact sf.2.2.2.2.2.2.2.2.2.1
  · exact sf.2.2.2.2.2.2.2.2.2.2

/-- C6 witness: the general branch lemma applied to the `?` entry of
`SYMBOLS` on a buffer whose next character `;` matches no nested entry. -/
theorem C6_trie_branch_witness :
    ∃ s' t, scanChar 2 SYMBOLS '?'
        { Scanner.new "?;".toList with current := 1 } = .ok (true, s') ∧
      s'.tokens =
        ({ Scanner.new "?;".toList with current := 1 } : Scanner).tokens
          ++ [t] ∧
      t.kind = QUESTION_MARK ∧
      s'.current =
        ({ Scanner.new "?;".toList with current := 1 } : Scanner).current ∧
      s'.read.length =
        ({ Scanner.new "?;".toList with current := 1 } : Scanner
          ).read.length + 1 ∧
      s'.errors =
        ({ Scanner.new "?;".toList with current := 1 } : Scanner).errors ∧
      s'.diags =
        ({ Scanner.new "?;".toList with current := 1 } : Scanner).diags :=
  C6_trie_branch.1 0 SYMBOLS _ '?' QUESTION_MARK
    { Scanner.new "?;".toList with current := 1 }
    ⟨rfl, rfl, rfl, by decide⟩ (by decide) rfl rfl

/-- C7: quoted string literals.  First conjunct: in the contents scan, a
backslash makes the immediately following character literal — including the
delimiter itself — (the spec function skips both characters, whatever the
second one is).  Second conjunct, scanner level: when the remaining input has
no unescaped closing delimiter, an unterminated-string diagnostic is recorded
and no token is appended; when it has one at distance `k`, exactly one STRING
token is appended whose stored content is the scanned span with raw
carriage-return, newline and tab characters stripped — in particular the
stored content contains none of those three characters.  The concrete
conjuncts check the claim's examples. -/
theorem C7_quoted_strings :
    (∀ (d c : Char) (r : List Char), d ≠ '\\' →
      findClose d ('\\' :: c :: r) = (findClose d r).map (fun k => k + 2)) ∧
    (∀ (d : Char) (s : Scanner), chNul ≠ d → Inv s →
      s.start < s.current → s.current < s.code.pos →
      (findClose d (s.code.src.drop s.current) = none →
        ∃ s' dg, readString d s = .ok s' ∧ s'.tokens = s.tokens ∧
          s'.errors = s.errors + 1 ∧ s'.diags = s.diags ++ [dg] ∧
          dg.message = "Unterminated string") ∧
      (∀ k, findClose d (s.code.src.drop s.current) = some k →
        ∃ s' t, readString d s = .ok s' ∧ s'.tokens = s.tokens ++ [t] ∧
          t.kind = STRING ∧
          t.lexeme = (padSlice s.code.src s.start (s.current + k + 1)).filter
            (fun x => ¬ (x = '\r' ∨ x = '\n' ∨ x = '\t')) ∧
          (∀ x ∈ t.lexeme, ¬ (x = '\r' ∨ x = '\n' ∨ x = '\t')))) ∧
    scanLexemes "\"a\\\"b\"" = .ok ["\"a\\\"b\"", "<end>"] ∧
    scanKinds "\"ab" = .ok [EOF] ∧
    scanMsgs "\"ab" = .ok ["Unterminated string"] := by
  refine ⟨?_, ?_, rfl, rfl, rfl⟩
  · intro d c r hd
    rw [findClose_cons, if_neg (fun hcontra => hd hcontra.symm), if_pos rfl]
  · intro d s hd hInv hsc hcp
    constructor
    · intro hfc
      obtain ⟨s1, hrun, ht, hstt, he, dg, hdg, hm, hh⟩ :=
        readStringContents_none d hd (s.size + 4) s hInv hcp (by omega) hfc
          (by omega)
      refine ⟨s1, dg, ?_, ht, he, hdg, hm⟩
      unfold readString
      rw [hrun]
      rfl
    · intro k hfc
      have hkl := findClose_lt hfc
      rw [List.length_drop] at hkl
      have hsrc : s.current < s.code.src.length := by omega
      have hfound := readStringContents_found d (s.size + 4) k s hInv hcp hfc
        (by rw [hInv.2.2.1]; omega)
      have hInv1 := Inv_advanceN hInv k
      have af := advanceN_fields k s
      have hadv := advance_eq hInv1
      have hInv2 := Inv_stepChar hInv1
      have sf2 := stepChar_fields (advanceN k s)
      have hs2start : (stepChar (advanceN k s)).start = s.start := by
        rw [sf2.2.2.2.2.1, af.2.2.2.1]
      have hs2cur : (stepChar (advanceN k s)).current = s.current + k + 1 := by
        rw [sf2.2.2.2.2.2.1, af.1]
      have hs2src : (stepChar (advanceN k s)).code.src = s.code.src := by
        rw [sf2.2.2.1, af.2.1]
      have hs2pos : (stepChar (advanceN k s)).code.pos = s.code.pos + k + 1 := by
        rw [sf2.2.2.2.1, af.2.2.1]
      have hsl := sliceRead_eq hInv2
        (a := (stepChar (advanceN k s)).start)
        (b := (stepChar (advanceN k s)).current)
        (by rw [hs2start, hs2cur]; omega)
        (by rw [hs2cur, hs2pos]; omega)
      obtain ⟨t, hAdd, htk, htl, hts, hte⟩ := addLiteralToken_eq hInv2
        (by rw [hs2start, hs2pos]; omega)
        (by rw [hs2cur, hs2pos]; omega)
        STRING
        ((padSlice s.code.src s.start (s.current + k + 1)).filter
          (fun x => ¬ (x = '\r' ∨ x = '\n' ∨ x = '\t')))
      refine ⟨{ stepChar (advanceN k s) with
        tokens := (stepChar (advanceN k s)).tokens ++ [t] }, t, ?_, ?_, htk,
        htl, ?_⟩
      · unfold readString
        rw [hfound]
        simp only [M_bind_ok, if_true]
        rw [hadv]
        simp only [M_bind_ok]
        rw [hsl]
        simp only [M_bind_ok]
        rw [hs2src, hs2start, hs2cur, hAdd, hs2start, hs2cur]
      · show (stepChar (advanceN k s)).tokens ++ [t] = s.tokens ++ [t]
        rw [sf2.2.2.2.2.2.2.2.1, af.2.2.2.2.2.1]
      · intro x hx
        rw [htl] at hx
        have := List.mem_filter.mp hx
        exact of_decide_eq_true this.2

/-- C7 witness: the characterization applied to a scan of `"ab` (opening
quote consumed, no closing quote in the remaining input). -/
theorem C7_quoted_strings_witness :
    ∃ s' dg, readString '"' { Scanner.new "\"ab".toList with current := 1 } =
        .ok s' ∧
      s'.tokens =
        ({ Scanner.new "\"ab".toList with current := 1 } : Scanner).tokens ∧
      s'.errors =
        ({ Scanner.new "\"ab".toList with current := 1 } : Scanner).errors
          + 1 ∧
      s'.diags =
        ({ Scanner.new "\"ab".toList with current := 1 } : Scanner).diags
          ++ [dg] ∧
      dg.message = "Unterminated string" :=
  (C7_quoted_strings.2.1 '"' { Scanner.new "\"ab".toList with current := 1 }
    (by decide) ⟨rfl, rfl, rfl, by decide⟩ (by decide) (by decide)).1 rfl

/-- C5 amended: raw strings.  Scanner level: a backtick-delimited scan whose
content (the `k` characters before the unescaped closing backtick) is `c`
emits one STRING token with lexeme `rawWrap c`.  Pure level: for every
content, `rawWrap` wraps the escape-replaced content in the bracket pair of
level `n`, where `n` satisfies exactly the claim's minimality condition on
that content: the collision pattern of level `n` does not occur in it, `n ≥ 1`
is forced when it ends with `]`, and every smaller level either collides or is
excluded only by the end-bracket forcing.  The claim's example is corrected:
content `a]=]b` contains no `]]`, so its level is 0 and the lexeme is
`[[a]=]b]]` (see the counterexample for the refutation of level 2). -/
theorem C5_raw_string_level :
    (∀ (s : Scanner) (k : Nat), Inv s →
      s.start + 1 = s.current → s.current < s.code.pos →
      findClose chTick (s.code.src.drop s.current) = some k →
      ∃ s' t, readRawString s = .ok s' ∧ s'.tokens = s.tokens ++ [t] ∧
        t.kind = STRING ∧
        t.lexeme = rawWrap ((s.code.src.drop s.current).take k)) ∧
    (∀ content : List Char,
      ∃ n, rawWrap content =
        ['['] ++ List.replicate n '=' ++ ['['] ++ replaceEsc content ++
          [']'] ++ List.replicate n '=' ++ [']'] ∧
      occursIn (bracketPat n) (replaceEsc content) = false ∧
      (endsWithRB (replaceEsc content) = true → 1 ≤ n) ∧
      (∀ m, m < n → occursIn (bracketPat m) (replaceEsc content) = true ∨
        (endsWithRB (replaceEsc content) = true ∧ m = 0))) ∧
    scanLexemes "`a]=]b`" = .ok ["[[a]=]b]]", "<end>"] ∧
    scanLexemes "`a\\``" = .ok ["[[a`]]", "<end>"] := by
  refine ⟨?_, ?_, rfl, rfl⟩
  · intro s k hInv hsc hcp hfc
    have hkl := findClose_lt hfc
    rw [List.length_drop] at hkl
    have hfound := readStringContents_found chTick (s.size + 4) k s hInv hcp
      hfc (by rw [hInv.2.2.1]; omega)
    have hInv1 := Inv_advanceN hInv k
    have af := advanceN_fields k s
    have hadv := advance_eq hInv1
    have hInv2 := Inv_stepChar hInv1
    have sf2 := stepChar_fields (advanceN k s)
    have hs2start : (stepChar (advanceN k s)).start = s.start := by
      rw [sf2.2.2.2.2.1, af.2.2.2.1]
    have hs2cur : (stepChar (advanceN k s)).current = s.current + k + 1 := by
      rw [sf2.2.2.2.2.2.1, af.1]
    have hs2src : (stepChar (advanceN k s)).code.src = s.code.src := by
      rw [sf2.2.2.1, af.2.1]
    have hs2pos : (stepChar (advanceN k s)).code.pos = s.code.pos + k + 1 := by
      rw [sf2.2.2.2.1, af.2.2.1]
    have hsl := sliceRead_eq hInv2
      (a := (stepChar (advanceN k s)).start + 1)
      (b := (stepChar (advanceN k s)).current - 1)
      (by rw [hs2start, hs2cur]; omega)
      (by rw [hs2cur, hs2pos]; omega)
    have hslice : padSlice (stepChar (advanceN k s)).code.src
        ((stepChar (advanceN k s)).start + 1)
        ((stepChar (advanceN k s)).current - 1) =
        (s.code.src.drop s.current).take k := by
      rw [hs2src, hs2start, hs2cur]
      rw [show s.current + k + 1 - 1 = s.current + k from by omega]
      rw [show s.start + 1 = s.current from hsc]
      rw [padSlice_drop_take s.code.src (by omega) (by omega)]
      rw [show s.current + k - s.current = k from by omega]
    obtain ⟨t, hAdd, htk, htl, hts, hte⟩ := addLiteralToken_eq hInv2
      (by rw [hs2start, hs2pos]; omega)
      (by rw [hs2cur, hs2pos]; omega)
      STRING (rawWrap ((s.code.src.drop s.current).take k))
    refine ⟨{ stepChar (advanceN k s) with
      tokens := (stepChar (advanceN k s)).tokens ++ [t] }, t, ?_, ?_, htk,
      htl⟩
    · unfold readRawString
      rw [hfound]
      simp only [M_bind_ok, if_true]
      rw [hadv]
      simp only [M_bind_ok]
      rw [hsl]
      simp only [M_bind_ok]
      rw [hslice, hAdd]
    · show (stepChar (advanceN k s)).tokens ++ [t] = s.tokens ++ [t]
      rw [sf2.2.2.2.2.2.2.2.1, af.2.2.2.2.2.1]
  · intro content
    obtain ⟨h1, h2, h3⟩ := rawLevel_spec content
    have hne : bracketPat (bracketsLoop content (content.length + 2)
        (endsWithRB content) 0) ≠ [] := by simp [bracketPat]
    refine ⟨bracketsLoop content (content.length + 2) (endsWithRB content) 0,
      rfl, ?_, ?_, ?_⟩
    · rw [occursIn_replaceEsc content _ hne (bracketPat_clean _)]
      exact h1
    · intro h
      apply h2
      rw [← endsWithRB_replaceEsc]
      exact h
    · intro m hm
      rcases h3 m hm with h | h
      · exact Or.inl (by
          rw [occursIn_replaceEsc content _ (by simp [bracketPat])
            (bracketPat_clean m)]
          exact h)
      · exact Or.inr ⟨by rw [endsWithRB_replaceEsc]; exact h.1, h.2⟩

/-- C5 witness: the scanner-level part applied to a scan of a one-character
raw string. -/
theorem C5_raw_string_level_witness :
    ∃ s' t, readRawString { Scanner.new "`x`".toList with current := 1 } =
        .ok s' ∧
      s'.tokens =
        ({ Scanner.new "`x`".toList with current := 1 } : Scanner).tokens
          ++ [t] ∧
      t.kind = STRING ∧
      t.lexeme = rawWrap
        ((({ Scanner.new "`x`".toList with current := 1 } : Scanner
          ).code.src.drop
          ({ Scanner.new "`x`".toList with current := 1 } : Scanner
          ).current).take 1) :=
  C5_raw_string_level.1 { Scanner.new "`x`".toList with current := 1 } 1
    ⟨rfl, rfl, rfl, by decide⟩ (by decide) (by decide) rfl

/-- C4 amended: non-decimal numerals.  General part: in the non-`simple` mode
used for `0x`/`0b` numerals (shown for any digit class `check`, instantiated
by the witness at the hexadecimal class), when the remaining input is a
non-empty all-`check` digit string `ds`, `read_number` consumes exactly `ds`,
scans no exponent, records no error, and emits one NUMBER token whose lexeme
is the already-consumed prefix (`0x…`) followed by `ds`.  Concrete parts:
the fractional part IS scanned, with the same digit class (`.. 0xA.F` is one
NUMBER `0xA.F`); no exponent is scanned in non-decimal mode (`..0b1e5` stops
the NUMBER at `0b1` and rescans `e5` as an identifier); consuming zero digits
after the prefix records a Malformed-number error (`.. 0x`, `.. 0b2`). -/
theorem C4_nondecimal_numbers :
    (∀ (check : Char → Bool) (s : Scanner) (ds : List Char),
      check chNul = false → Inv s →
      s.start < s.current → s.current + 2 = s.code.pos →
      s.code.src.drop s.current = ds →
      (∀ c ∈ ds, check c = true) → ds ≠ [] →
      ∃ s' t, readNumber check false s = .ok s' ∧
        s'.tokens = s.tokens ++ [t] ∧ t.kind = NUMBER ∧
        t.lexeme = padSlice s.code.src s.start s.current ++ ds ∧
        s'.errors = s.errors ∧ s'.diags = s.diags) ∧
    scanLexemes ".. 0xA.F" = .ok ["..", "0xA.F", "<end>"] ∧
    scanKinds "..0b1e5" = .ok [TWODOTS, NUMBER, IDENTIFIER, EOF] ∧
    scanLexemes "..0b1e5" = .ok ["..", "0b1", "e5", "<end>"] ∧
    scanMsgs ".. 0x" = .ok ["Malformed number"] ∧
    scanLexemes ".. 0x" = .ok ["..", "0x", "<end>"] ∧
    scanMsgs ".. 0b2" = .ok ["Malformed number"] ∧
    scanLexemes ".. 0b2" = .ok ["..", "0b", "2", "<end>"] := by
  refine ⟨?_, rfl, rfl, rfl, rfl, rfl, rfl, rfl⟩
  intro check s ds hχ hInv hsc hoff hdrop hall hne
  have hlen := drop_eq_imp_length hdrop hne
  have hn1 : 1 ≤ ds.length := by
    cases ds with
    | nil => exact absurd rfl hne
    | cons a l => simp
  have htw : (s.code.src.drop s.current).takeWhile check = ds := by
    rw [hdrop]
    exact takeWhile_all hall
  have hdl := digitLoop_spec check hχ ds (s.size + 2) s hInv (by omega) htw
    (by rw [hInv.2.2.1]; omega)
  have af := advanceN_fields ds.length s
  have hInvN := Inv_advanceN hInv ds.length
  have hpk := peek_eq hInvN (k := 0)
    (by rw [af.1, af.2.2.1]; omega)
  rw [Nat.add_zero, af.1, af.2.1, padGet_ge (by omega)] at hpk
  have hslice2 : (advanceN ds.length s).sliceRead (advanceN ds.length s).current
      ((advanceN ds.length s).current + 2) =
      .ok [chNul, chNul] := by
    have h0 := sliceRead_eq hInvN
      (a := (advanceN ds.length s).current)
      (b := (advanceN ds.length s).current + 2)
      (by omega) (by rw [af.1, af.2.2.1]; omega)
    rw [h0]
    congr 1
    unfold padSlice
    rw [show (advanceN ds.length s).current + 2 -
        (advanceN ds.length s).current = 2 from by omega]
    show [padGet (advanceN ds.length s).code.src ((advanceN ds.length s).current),
          padGet (advanceN ds.length s).code.src ((advanceN ds.length s).current + 1)] = _
    rw [af.2.1, af.1]
    rw [padGet_ge (by omega), padGet_ge (by omega)]
  have hsuffix : numberSuffix (advanceN ds.length s) =
      .ok (advanceN ds.length s) := by
    unfold numberSuffix
    rw [hslice2]
    simp only [M_bind_ok]
    rw [if_neg (by decide), if_neg (by decide)]
  obtain ⟨t, hAdd, htk, htl, hts, hte⟩ := addToken_eq hInvN
    (by rw [af.2.2.2.1, af.2.2.1]; omega)
    (by rw [af.1, af.2.2.1]; omega)
    (by rw [af.2.2.2.1, af.1]; omega)
    NUMBER
  have htlex : padSlice (advanceN ds.length s).code.src
      (advanceN ds.length s).start (advanceN ds.length s).current =
      padSlice s.code.src s.start s.current ++ ds := by
    rw [af.2.1, af.2.2.2.1, af.1]
    rw [padSlice_append s.code.src (a := s.start) (b := s.current)
      (c := s.current + ds.length) (by omega) (by omega)]
    rw [padSlice_of_drop hdrop hne]
  refine ⟨{ advanceN ds.length s with
              last := NUMBER,
              tokens := (advanceN ds.length s).tokens ++ [t] },
            t, ?_, ?_, htk, ?_, ?_, ?_⟩
  · unfold readNumber
    rw [hdl]
    simp only [M_bind_ok]
    rw [hpk]
    simp only [M_bind_ok]
    rw [if_neg (by decide)]
    simp only [M_bind_ok, Bool.false_eq_true, if_false]
    rw [if_neg (by rw [af.1]; omega)]
    simp only [M_bind_ok]
    rw [hsuffix]
    simp only [M_bind_ok]
    rw [hAdd]
  · show (advanceN ds.length s).tokens ++ [t] = s.tokens ++ [t]
    rw [af.2.2.2.2.2.1]
  · rw [htl, htlex]
  · show (advanceN ds.length s).errors = s.errors
    exact af.2.2.2.2.2.2.2.1
  · show (advanceN ds.length s).diags = s.diags
    exact af.2.2.2.2.2.2.2.2

/-- C4 witness: the general non-decimal lemma applied to the state of the
scan of `.. 0x1A` right after the `0x` prefix (hex digit class, digits
`1A`). -/
theorem C4_nondecimal_numbers_witness :
    ∃ s' t, readNumber isHexDigitC false
        { Scanner.new ".. 0x1A".toList with
            start := 3,
            current := 5,
            code := { src := ".. 0x1A".toList, pos := 7, line := 1,
                      column := 7, lastBytes := 1 },
            read := padTake ".. 0x1A".toList 7,
            positions := List.replicate 7 (1, 1) } = .ok s' ∧
      s'.tokens = ({ Scanner.new ".. 0x1A".toList with
            start := 3,
            current := 5,
            code := { src := ".. 0x1A".toList, pos := 7, line := 1,
                      column := 7, lastBytes := 1 },
            read := padTake ".. 0x1A".toList 7,
            positions := List.replicate 7 (1, 1) } : Scanner).tokens ++ [t] ∧
      t.kind = NUMBER ∧
      t.lexeme = padSlice ".. 0x1A".toList 3 5 ++ "1A".toList ∧
      s'.errors = 0 ∧ s'.diags = [] :=
  C4_nondecimal_numbers.1 isHexDigitC
    { Scanner.new ".. 0x1A".toList with
        start := 3,
        current := 5,
        code := { src := ".. 0x1A".toList, pos := 7, line := 1,
                  column := 7, lastBytes := 1 },
        read := padTake ".. 0x1A".toList 7,
        positions := List.replicate 7 (1, 1) } "1A".toList
    (by decide) ⟨rfl, rfl, rfl, by decide⟩ (by decide) (by decide)
    (by decide) (by decide) (by decide)

/-- C8 amended: the integer-suffix step of `read_number` is pure lookahead.
When the two characters at the cursor are `U`,`L` and the third is not `L`, a
Malformed-number diagnostic is recorded and NO character is consumed — the
state is unchanged except for the error counter and diagnostics, so the
NUMBER lexeme never contains a partial suffix (the `U`,`L` are rescanned
later, as the concrete `..1UL;` scan shows: NUMBER `1` then IDENTIFIER `UL`).
`LL` and `ULL` are consumed verbatim into the lexeme.  On a plain decimal
number the third-character lookahead `peek(2)` is out of bounds (`1UL;`
aborts), which is why the general parts carry lookahead-bounds hypotheses. -/
theorem C8_integer_suffix :
    (∀ s : Scanner, Inv s → s.start < s.code.pos →
      s.current + 2 ≤ s.code.pos →
      (padGet s.code.src s.current = 'U' →
       padGet s.code.src (s.current + 1) = 'L' →
       s.current + 2 < s.code.pos →
       ¬ padGet s.code.src (s.current + 2) = 'L' →
       ∃ dg, numberSuffix s =
         .ok { s with errors := s.errors + 1, diags := s.diags ++ [dg] } ∧
         dg.message = "Malformed number") ∧
      (padGet s.code.src s.current = 'L' →
       padGet s.code.src (s.current + 1) = 'L' →
       numberSuffix s = .ok (advanceN 2 s)) ∧
      (padGet s.code.src s.current = 'U' →
       padGet s.code.src (s.current + 1) = 'L' →
       s.current + 2 < s.code.pos →
       padGet s.code.src (s.current + 2) = 'L' →
       numberSuffix s = .ok (advanceN 3 s))) ∧
    scanKinds "..1UL;" = .ok [TWODOTS, NUMBER, IDENTIFIER, SEMICOLON, EOF] ∧
    scanLexemes "..1UL;" = .ok ["..", "1", "UL", ";", "<end>"] ∧
    scanMsgs "..1UL;" = .ok ["Malformed number"] ∧
    scanLexemes "..1LL" = .ok ["..", "1LL", "<end>"] ∧
    scanLexemes "..1ULL" = .ok ["..", "1ULL", "<end>"] ∧
    scanCode "1UL;".toList = .error .oob := by
  refine ⟨?_, rfl, rfl, rfl, rfl, rfl, rfl⟩
  intro s hInv hsp hoff
  have hslice : s.sliceRead s.current (s.current + 2) =
      .ok [padGet s.code.src s.current, padGet s.code.src (s.current + 1)] := by
    have h0 := sliceRead_eq hInv (a := s.current) (b := s.current + 2)
      (by omega) (by omega)
    rw [h0]
    congr 1
    unfold padSlice
    rw [show s.current + 2 - s.current = 2 from by omega]
    rfl
  refine ⟨?_, ?_, ?_⟩
  · intro hU hL hpk2 hnL
    have hpk := peek_eq hInv (k := 2) hpk2
    obtain ⟨dg, herr, hm, _, _, _⟩ := error_eq hInv hsp "Malformed number" none
    refine ⟨dg, ?_, hm⟩
    unfold numberSuffix
    rw [hslice]
    simp only [M_bind_ok]
    rw [hU, hL]
    rw [if_neg (by decide), if_pos rfl, hpk]
    simp only [M_bind_ok]
    rw [if_neg hnL, herr]
  · intro hL1 hL2
    have hadv1 := advance_eq hInv
    have hadv2 := advance_eq (Inv_stepChar hInv)
    unfold numberSuffix
    rw [hslice]
    simp only [M_bind_ok]
    rw [hL1, hL2]
    rw [if_pos rfl, hadv1]
    simp only [M_bind_ok]
    rw [hadv2]
    simp only [M_bind_ok]
    rfl
  · intro hU hL hpk2 hLL
    have hpk := peek_eq hInv (k := 2) hpk2
    have hadv1 := advance_eq hInv
    have hadv2 := advance_eq (Inv_stepChar hInv)
    have hadv3 := advance_eq (Inv_stepChar (Inv_stepChar hInv))
    unfold numberSuffix
    rw [hslice]
    simp only [M_bind_ok]
    rw [hU, hL]
    rw [if_neg (by decide), if_pos rfl, hpk]
    simp only [M_bind_ok]
    rw [if_pos hLL, hadv1]
    simp only [M_bind_ok]
    rw [hadv2]
    simp only [M_bind_ok]
    rw [hadv3]
    simp only [M_bind_ok]
    rfl

/-- C8 witness: the `LL` suffix part applied to a buffer whose next two
characters are `L`,`L`. -/
theorem C8_integer_suffix_witness :
    numberSuffix (Scanner.new "LL;".toList) =
      .ok (advanceN 2 (Scanner.new "LL;".toList)) :=
  (C8_integer_suffix.1 (Scanner.new "LL;".toList)
    ⟨rfl, rfl, rfl, by decide⟩ (by decide) (by decide)).2.1 rfl rfl

/-! ## Monadic plumbing for ok-conditioned inversion -/

theorem M_bind_err {α β : Type} (e : Crash) (f : α → M β) :
    (Except.error e : M α) >>= f = .error e := rfl

theorem M_ok_of_bind {α β : Type} {x : M α} {f : α → M β} {b : β}
    (h : x >>= f = .ok b) : ∃ a, x = .ok a ∧ f a = .ok b := by
  cases x with
  | error e => rw [M_bind_err] at h; exact Except.noConfusion h
  | ok a => rw [M_bind_ok] at h; exact ⟨a, rfl, h⟩

theorem M_ok_inj {α : Type} {x y : α} (h : (Except.ok x : M α) = .ok y) :
    x = y := Except.ok.inj h

/-! ## Wellformed token lists -/

theorem TokInv_nil (b : Nat) : TokInv [] b := by
  refine ⟨?_, ?_⟩
  · intro t ht; exact absurd ht (List.not_mem_nil t)
  · simp

theorem TokInv_mono {tk : List Token} {b c : Nat} (h : TokInv tk b)
    (hb : b ≤ c) : TokInv tk c := by
  refine ⟨fun t ht => ?_, h.2⟩
  obtain ⟨h1, h2, h3⟩ := h.1 t ht
  exact ⟨h1, h2, le_trans h3 hb⟩

theorem TokInv_push {tk : List Token} {b : Nat} {t : Token} (h : TokInv tk b)
    (hk : t.kind ≠ EOF) (hse : t.startPos.index < t.endPos.index)
    (hbe : b ≤ t.endPos.index) : TokInv (tk ++ [t]) t.endPos.index := by
  refine ⟨?_, ?_⟩
  · intro u hu
    rcases List.mem_append.mp hu with hu | hu
    · obtain ⟨h1, h2, h3⟩ := h.1 u hu
      exact ⟨h1, h2, le_trans h3 hbe⟩
    · rw [List.mem_singleton.mp hu]
      exact ⟨hk, hse, le_refl _⟩
  · rw [List.map_append, List.chain'_append]
    refine ⟨h.2, by simp, ?_⟩
    intro x hx y hy
    simp only [List.map_cons, List.map_nil, List.head?_cons, Option.mem_def,
      Option.some.injEq] at hy
    have hx2 := List.mem_of_mem_getLast? hx
    obtain ⟨u, hu, rfl⟩ := List.mem_map.mp hx2
    have hub := (h.1 u hu).2.2
    rw [← hy]
    exact le_trans hub hbe

/-! ## Per-operation shape lemmas, conditioned on an ok result -/

theorem advance_tok {s : Scanner} {r : Char × Scanner}
    (h : s.advance = .ok r) :
    r.2.tokens = s.tokens ∧ r.2.start = s.start ∧
    r.2.current = s.current + 1 ∧ r.2.last = s.last := by
  obtain ⟨f1, f2, f3, f4, f5, f6, f7, f8, f9, f10, f11⟩ := pushNext_fields s
  simp only [Scanner.advance] at h
  obtain ⟨a, ha, h⟩ := M_ok_of_bind h
  by_cases hrd : 0 < (s.pushNext).code.lastBytes
  · rw [if_pos hrd] at h
    have hp := M_ok_inj h
    subst hp
    exact ⟨f8, f5, congrArg (fun n => n + 1) f6, f9⟩
  · rw [if_neg hrd] at h
    have hp := M_ok_inj h
    subst hp
    exact ⟨f8, f5, congrArg (fun n => n + 1) f6, f9⟩

theorem error_tok {s : Scanner} {msg : String} {hlp : Option String}
    {s2 : Scanner} (h : s.error msg hlp = .ok s2) :
    s2.tokens = s.tokens ∧ s2.start = s.start ∧ s2.current = s.current ∧
    s2.last = s.last := by
  simp only [Scanner.error] at h
  obtain ⟨p, hp, h⟩ := M_ok_of_bind h
  have hs := M_ok_inj h
  subst hs
  exact ⟨rfl, rfl, rfl, rfl⟩

theorem reserved_tok {s : Scanner} {kw msg : String} {r : TokenType × Scanner}
    (h : s.reserved kw msg = .ok r) :
    r.1 = IDENTIFIER ∧ r.2.tokens = s.tokens ∧ r.2.start = s.start ∧
    r.2.current = s.current := by
  simp only [Scanner.reserved] at h
  obtain ⟨s1, h1, h⟩ := M_ok_of_bind h
  obtain ⟨t1, t2, t3, _⟩ := error_tok h1
  have hp := M_ok_inj h
  subst hp
  exact ⟨rfl, t1, t2, t3⟩

theorem range_tok {s : Scanner} {r : TokenPosition × TokenPosition}
    (h : s.range = .ok r) : r.1.index = s.start ∧ r.2.index = s.current := by
  simp only [Scanner.range] at h
  obtain ⟨p, hp, h⟩ := M_ok_of_bind h
  obtain ⟨q, hq, h⟩ := M_ok_of_bind h
  have hpair := M_ok_inj h
  subst hpair
  exact ⟨rfl, rfl⟩

theorem addLiteralToken_tok {s : Scanner} {k : TokenType} {lit : List Char}
    {s2 : Scanner} (h : s.addLiteralToken k lit = .ok s2) :
    ∃ t : Token, s2.tokens = s.tokens ++ [t] ∧ t.kind = k ∧ t.lexeme = lit ∧
      t.startPos.index = s.start ∧ t.endPos.index = s.current ∧
      s2.start = s.start ∧ s2.current = s.current := by
  simp only [Scanner.addLiteralToken] at h
  obtain ⟨ab, hab, h⟩ := M_ok_of_bind h
  obtain ⟨ha, hb⟩ := range_tok hab
  have hs := M_ok_inj h
  subst hs
  exact ⟨_, rfl, rfl, rfl, ha, hb, rfl, rfl⟩

theorem addToken_tok {s : Scanner} {k : TokenType} {s2 : Scanner}
    (h : s.addToken k = .ok s2) :
    ∃ t : Token, s2.tokens = s.tokens ++ [t] ∧ t.kind = k ∧
      t.startPos.index = s.start ∧ t.endPos.index = s.current ∧
      s2.start = s.start ∧ s2.current = s.current := by
  simp only [Scanner.addToken] at h
  obtain ⟨ab, hab, h⟩ := M_ok_of_bind h
  obtain ⟨ha, hb⟩ := range_tok hab
  obtain ⟨lex, hlex, h⟩ := M_ok_of_bind h
  have hs := M_ok_inj h
  subst hs
  exact ⟨_, rfl, rfl, ha, hb, rfl, rfl⟩

theorem compare_tok {s : Scanner} {e : Char} {r : Bool × Scanner}
    (h : s.compare e = .ok r) :
    r.2.tokens = s.tokens ∧ r.2.start = s.start ∧ s.current ≤ r.2.current ∧
    r.2.current ≤ s.current + 1 ∧ (r.1 = false → r.2 = s) := by
  simp only [Scanner.compare] at h
  split at h
  · have hp := M_ok_inj h
    subst hp
    exact ⟨rfl, rfl, le_refl _, Nat.le_succ _, fun _ => rfl⟩
  · obtain ⟨c, hc, h⟩ := M_ok_of_bind h
    split at h
    · obtain ⟨q, hq, h⟩ := M_ok_of_bind h
      obtain ⟨t1, t2, t3, _⟩ := advance_tok hq
      have hp := M_ok_inj h
      subst hp
      refine ⟨t1, t2, ?_, ?_, fun hf => Bool.noConfusion hf⟩
      · show s.current ≤ q.2.current
        omega
      · show q.2.current ≤ s.current + 1
        omega
    · have hp := M_ok_inj h
      subst hp
      exact ⟨rfl, rfl, le_refl _, Nat.le_succ _, fun _ => rfl⟩

theorem digitLoop_tok (check : Char → Bool) :
    ∀ (fuel : Nat) (s s2 : Scanner), digitLoop check fuel s = .ok s2 →
      s2.tokens = s.tokens ∧ s2.start = s.start ∧ s.current ≤ s2.current
  | 0, _, _, h => Except.noConfusion h
  | fuel + 1, s, s2, h => by
      simp only [digitLoop] at h
      obtain ⟨c, hc, h⟩ := M_ok_of_bind h
      split at h
      · obtain ⟨p, hp, h⟩ := M_ok_of_bind h
        obtain ⟨a1, a2, a3, _⟩ := advance_tok hp
        obtain ⟨u1, u2, u3⟩ := digitLoop_tok check fuel _ s2 h
        exact ⟨u1.trans a1, u2.trans a2, by omega⟩
      · have hs : s = s2 := M_ok_inj h
        subst hs
        exact ⟨rfl, rfl, le_refl _⟩

theorem numberSuffix_tok {s s2 : Scanner} (h : numberSuffix s = .ok s2) :
    s2.tokens = s.tokens ∧ s2.start = s.start ∧ s.current ≤ s2.current := by
  simp only [numberSuffix] at h
  obtain ⟨two, htwo, h⟩ := M_ok_of_bind h
  split at h
  · obtain ⟨p1, hp1, h⟩ := M_ok_of_bind h
    obtain ⟨a1, a2, a3, _⟩ := advance_tok hp1
    obtain ⟨p2, hp2, h⟩ := M_ok_of_bind h
    obtain ⟨b1, b2, b3, _⟩ := advance_tok hp2
    have hs : p2.2 = s2 := M_ok_inj h
    subst hs
    exact ⟨b1.trans a1, b2.trans a2, by omega⟩
  · split at h
    · obtain ⟨c, hc, h⟩ := M_ok_of_bind h
      split at h
      · obtain ⟨p1, hp1, h⟩ := M_ok_of_bind h
        obtain ⟨a1, a2, a3, _⟩ := advance_tok hp1
        obtain ⟨p2, hp2, h⟩ := M_ok_of_bind h
        obtain ⟨b1, b2, b3, _⟩ := advance_tok hp2
        obtain ⟨p3, hp3, h⟩ := M_ok_of_bind h
        obtain ⟨d1, d2, d3, _⟩ := advance_tok hp3
        have hs : p3.2 = s2 := M_ok_inj h
        subst hs
        exact ⟨(d1.trans b1).trans a1, (d2.trans b2).trans a2, by omega⟩
      · obtain ⟨t1, t2, t3, _⟩ := error_tok h
        exact ⟨t1, t2, le_of_eq t3.symm⟩
    · have hs : s = s2 := M_ok_inj h
      subst hs
      exact ⟨rfl, rfl, le_refl _⟩

theorem readNumber_tok {check : Char → Bool} {simple : Bool} {s s2 : Scanner}
    (h : readNumber check simple s = .ok s2) :
    s2.start = s.start ∧ s.current ≤ s2.current ∧
    ∃ t : Token, s2.tokens = s.tokens ++ [t] ∧ t.kind = NUMBER ∧
      t.startPos.index = s.start ∧ t.endPos.index = s2.current := by
  simp only [readNumber] at h
  obtain ⟨sa, ha, h⟩ := M_ok_of_bind h
  obtain ⟨d1, d2, d3⟩ := digitLoop_tok check _ _ _ ha
  obtain ⟨c0, hc0, h⟩ := M_ok_of_bind h
  obtain ⟨sb, hb, h⟩ := M_ok_of_bind h
  have hf : sb.tokens = sa.tokens ∧ sb.start = sa.start ∧
      sa.current ≤ sb.current := by
    split at hb
    · obtain ⟨c1, hc1, hb⟩ := M_ok_of_bind hb
      split at hb
      · obtain ⟨p, hp, hb⟩ := M_ok_of_bind hb
        obtain ⟨a1, a2, a3, _⟩ := advance_tok hp
        obtain ⟨u1, u2, u3⟩ := digitLoop_tok check _ _ _ hb
        exact ⟨u1.trans a1, u2.trans a2, by omega⟩
      · have hs : sa = sb := M_ok_inj hb
        subst hs
        exact ⟨rfl, rfl, le_refl _⟩
    · have hs : sa = sb := M_ok_inj hb
      subst hs
      exact ⟨rfl, rfl, le_refl _⟩
  obtain ⟨f1, f2, f3⟩ := hf
  obtain ⟨sc, hcm, h⟩ := M_ok_of_bind h
  have hg : sc.tokens = sb.tokens ∧ sc.start = sb.start ∧
      sb.current ≤ sc.current := by
    split at hcm
    · obtain ⟨ce, hce, hcm⟩ := M_ok_of_bind hcm
      split at hcm
      · obtain ⟨c1, hc1, hcm⟩ := M_ok_of_bind hcm
        obtain ⟨sE, hE, hcm⟩ := M_ok_of_bind hcm
        have hEc : sE.tokens = sb.tokens ∧ sE.start = sb.start ∧
            sb.current ≤ sE.current := by
          split at hE
          · split at hE
            · obtain ⟨c2, hc2, hE⟩ := M_ok_of_bind hE
              split at hE
              · obtain ⟨p, hp, hE⟩ := M_ok_of_bind hE
                obtain ⟨a1, a2, a3, _⟩ := advance_tok hp
                have hs : p.2 = sE := M_ok_inj hE
                subst hs
                exact ⟨a1, a2, by omega⟩
              · obtain ⟨t1, t2, t3, _⟩ := error_tok hE
                exact ⟨t1, t2, le_of_eq t3.symm⟩
            · obtain ⟨t1, t2, t3, _⟩ := error_tok hE
              exact ⟨t1, t2, le_of_eq t3.symm⟩
          · have hs : sb = sE := M_ok_inj hE
            subst hs
            exact ⟨rfl, rfl, le_refl _⟩
        obtain ⟨e1, e2, e3⟩ := hEc
        obtain ⟨p, hp, hcm⟩ := M_ok_of_bind hcm
        obtain ⟨a1, a2, a3, _⟩ := advance_tok hp
        obtain ⟨u1, u2, u3⟩ := digitLoop_tok isAsciiDigitC _ _ _ hcm
        exact ⟨(u1.trans a1).trans e1, (u2.trans a2).trans e2, by omega⟩
      · have hs : sb = sc := M_ok_inj hcm
        subst hs
        exact ⟨rfl, rfl, le_refl _⟩
    · split at hcm
      · obtain ⟨t1, t2, t3, _⟩ := error_tok hcm
        exact ⟨t1, t2, le_of_eq t3.symm⟩
      · have hs : sb = sc := M_ok_inj hcm
        subst hs
        exact ⟨rfl, rfl, le_refl _⟩
  obtain ⟨g1, g2, g3⟩ := hg
  obtain ⟨sd, hd, h⟩ := M_ok_of_bind h
  obtain ⟨n1, n2, n3⟩ := numberSuffix_tok hd
  obtain ⟨t, ht, hk, hts, hte, hst, hcur⟩ := addToken_tok h
  refine ⟨?_, ?_, t, ?_, hk, ?_, ?_⟩
  · rw [hst, n2, g2, f2, d2]
  · omega
  · rw [ht, n1, g1, f1, d1]
  · rw [hts, n2, g2, f2, d2]
  · rw [hte, hcur]

theorem identLoop_tok :
    ∀ (fuel : Nat) (s : Scanner) (acc : List Char) (r : List Char × Scanner),
      identLoop fuel s acc = .ok r →
      r.2.tokens = s.tokens ∧ r.2.start = s.start ∧ s.current ≤ r.2.current
  | 0, _, _, _, h => Except.noConfusion h
  | fuel + 1, s, acc, r, h => by
      simp only [identLoop] at h
      obtain ⟨c, hc, h⟩ := M_ok_of_bind h
      split at h
      · obtain ⟨p, hp, h⟩ := M_ok_of_bind h
        obtain ⟨a1, a2, a3, _⟩ := advance_tok hp
        obtain ⟨u1, u2, u3⟩ := identLoop_tok fuel _ _ r h
        exact ⟨u1.trans a1, u2.trans a2, by omega⟩
      · have hp := M_ok_inj h
        subst hp
        exact ⟨rfl, rfl, le_refl _⟩

theorem readIdentifier_tok {s : Scanner} {r : List Char × Scanner}
    (h : readIdentifier s = .ok r) :
    r.2.tokens = s.tokens ∧ r.2.start = s.start ∧ s.current ≤ r.2.current := by
  simp only [readIdentifier] at h
  obtain ⟨c0, hc0, h⟩ := M_ok_of_bind h
  exact identLoop_tok _ _ _ _ h

theorem KEYWORDS_kinds_ok : KEYWORDS.all (fun p => kwOK p.2) = true := by
  decide

theorem keywordsLookup_ok {ident : List Char} {kt : KeywordType}
    (h : keywordsLookup ident = some kt) : kwOK kt = true := by
  unfold keywordsLookup at h
  cases hf : KEYWORDS.find? (fun p => p.1.toList == ident) with
  | none => rw [hf] at h; exact Option.noConfusion h
  | some pr =>
      rw [hf] at h
      have hmem := List.mem_of_find?_eq_some hf
      have hall := List.all_eq_true.mp KEYWORDS_kinds_ok pr hmem
      have hpr : pr.2 = kt := Option.some.inj h
      rw [← hpr]
      exact hall

theorem identKind_tok {s : Scanner} {ident : List Char}
    {r : TokenType × Scanner} (h : identKind s ident = .ok r) :
    r.1 ≠ EOF ∧ r.2.tokens = s.tokens ∧ r.2.start = s.start ∧
    r.2.current = s.current := by
  simp only [identKind] at h
  split at h
  · have hp := M_ok_inj h
    subst hp
    exact ⟨fun hc => TokenType.noConfusion hc, rfl, rfl, rfl⟩
  · rename_i kind heq
    have hp := M_ok_inj h
    subst hp
    have hko := keywordsLookup_ok heq
    simp only [kwOK, bne_iff_ne, ne_eq] at hko
    exact ⟨hko, rfl, rfl, rfl⟩
  · obtain ⟨e1, t1, t2, t3⟩ := reserved_tok h
    refine ⟨?_, t1, t2, t3⟩
    rw [e1]
    decide
  · rename_i kind heq
    split at h
    · have hp := M_ok_inj h
      subst hp
      exact ⟨fun hc => TokenType.noConfusion hc, rfl, rfl, rfl⟩
    · have hp := M_ok_inj h
      subst hp
      have hko := keywordsLookup_ok heq
      simp only [kwOK, bne_iff_ne, ne_eq] at hko
      exact ⟨hko, rfl, rfl, rfl⟩
  · split at h
    · have hp := M_ok_inj h
      subst hp
      exact ⟨fun hc => TokenType.noConfusion hc, rfl, rfl, rfl⟩
    · obtain ⟨se, hse, h⟩ := M_ok_of_bind h
      obtain ⟨t1, t2, t3, _⟩ := error_tok hse
      have hp := M_ok_inj h
      subst hp
      exact ⟨fun hc => TokenType.noConfusion hc, t1, t2, t3⟩

theorem readStringContents_tok (d : Char) :
    ∀ (fuel : Nat) (s : Scanner) (r : Bool × Scanner),
      readStringContents d fuel s = .ok r →
      r.2.tokens = s.tokens ∧ r.2.start = s.start ∧ s.current ≤ r.2.current
  | 0, _, _, h => Except.noConfusion h
  | fuel + 1, s, r, h => by
      simp only [readStringContents] at h
      split at h
      · obtain ⟨se, hse, h⟩ := M_ok_of_bind h
        obtain ⟨t1, t2, t3, _⟩ := error_tok hse
        have hp := M_ok_inj h
        subst hp
        exact ⟨t1, t2, le_of_eq t3.symm⟩
      · obtain ⟨c, hc, h⟩ := M_ok_of_bind h
        split at h
        · have hp := M_ok_inj h
          subst hp
          exact ⟨rfl, rfl, le_refl _⟩
        · obtain ⟨p1, hp1, h⟩ := M_ok_of_bind h
          obtain ⟨a1, a2, a3, _⟩ := advance_tok hp1
          obtain ⟨lb, hlb, h⟩ := M_ok_of_bind h
          split at h
          · obtain ⟨p2, hp2, h⟩ := M_ok_of_bind h
            obtain ⟨b1, b2, b3, _⟩ := advance_tok hp2
            obtain ⟨u1, u2, u3⟩ := readStringContents_tok d fuel _ r h
            exact ⟨(u1.trans b1).trans a1, (u2.trans b2).trans a2, by omega⟩
          · obtain ⟨u1, u2, u3⟩ := readStringContents_tok d fuel _ r h
            exact ⟨u1.trans a1, u2.trans a2, by omega⟩

theorem readString_tok {d : Char} {s s2 : Scanner}
    (h : readString d s = .ok s2) :
    s2.start = s.start ∧ s.current ≤ s2.current ∧
    (s2.tokens = s.tokens ∨
     ∃ t : Token, s2.tokens = s.tokens ++ [t] ∧ t.kind = STRING ∧
       t.startPos.index = s.start ∧ t.endPos.index = s2.current ∧
       s.current < s2.current) := by
  simp only [readString] at h
  obtain ⟨p, hp, h⟩ := M_ok_of_bind h
  obtain ⟨c1, c2, c3⟩ := readStringContents_tok d _ _ _ hp
  split at h
  · obtain ⟨q, hq, h⟩ := M_ok_of_bind h
    obtain ⟨a1, a2, a3, _⟩ := advance_tok hq
    obtain ⟨span, hspan, h⟩ := M_ok_of_bind h
    obtain ⟨t, ht, hk, hlex, hts, hte, hst, hcur⟩ := addLiteralToken_tok h
    refine ⟨by rw [hst, a2, c2], by omega,
      Or.inr ⟨t, ?_, hk, by rw [hts, a2, c2], by rw [hte, hcur], by omega⟩⟩
    rw [ht, a1, c1]
  · have hs : p.2 = s2 := M_ok_inj h
    subst hs
    exact ⟨c2, c3, Or.inl c1⟩

theorem readRawString_tok {s s2 : Scanner} (h : readRawString s = .ok s2) :
    s2.start = s.start ∧ s.current ≤ s2.current ∧
    (s2.tokens = s.tokens ∨
     ∃ t : Token, s2.tokens = s.tokens ++ [t] ∧ t.kind = STRING ∧
       t.startPos.index = s.start ∧ t.endPos.index = s2.current ∧
       s.current < s2.current) := by
  simp only [readRawString] at h
  obtain ⟨p, hp, h⟩ := M_ok_of_bind h
  obtain ⟨c1, c2, c3⟩ := readStringContents_tok chTick _ _ _ hp
  split at h
  · obtain ⟨q, hq, h⟩ := M_ok_of_bind h
    obtain ⟨a1, a2, a3, _⟩ := advance_tok hq
    obtain ⟨lit, hlit, h⟩ := M_ok_of_bind h
    obtain ⟨t, ht, hk, hlex, hts, hte, hst, hcur⟩ := addLiteralToken_tok h
    refine ⟨by rw [hst, a2, c2], by omega,
      Or.inr ⟨t, ?_, hk, by rw [hts, a2, c2], by rw [hte, hcur], by omega⟩⟩
    rw [ht, a1, c1]
  · have hs : p.2 = s2 := M_ok_inj h
    subst hs
    exact ⟨c2, c3, Or.inl c1⟩

theorem runFnAction_tok {a : FnAction} {s s2 : Scanner}
    (h : runFnAction a s = .ok s2) :
    s2.start = s.start ∧
    ((s2.tokens = s.tokens ∧ s.current - 1 ≤ s2.current) ∨
     (∃ t : Token, s2.tokens = s.tokens ++ [t] ∧ t.kind ≠ EOF ∧
        t.startPos.index = s.start ∧ t.endPos.index = s2.current ∧
        s.current ≤ s2.current)) := by
  cases a with
  | qcolon =>
      simp only [runFnAction] at h
      obtain ⟨p, hp, h⟩ := M_ok_of_bind h
      obtain ⟨c1, c2, c3, c4, c5⟩ := compare_tok hp
      split at h
      · obtain ⟨t, ht, hk, hts, hte, hst, hcur⟩ := addToken_tok h
        refine ⟨hst.trans c2, Or.inr ⟨t, ?_, ?_, hts.trans c2,
          by rw [hte, hcur], by omega⟩⟩
        · rw [ht, c1]
        · rw [hk]; decide
      · rename_i hnm
        have hmf : p.1 = false := Bool.eq_false_iff.mpr hnm
        have hps : p.2 = s := c5 hmf
        have hs := M_ok_inj h
        subst hs
        refine ⟨?_, Or.inl ⟨?_, ?_⟩⟩
        · show p.2.start = s.start
          rw [hps]
        · show p.2.tokens = s.tokens
          rw [hps]
        · show s.current - 1 ≤ p.2.current - 1
          rw [hps]
  | str d =>
      simp only [runFnAction] at h
      obtain ⟨h1, h2, h3⟩ := readString_tok h
      refine ⟨h1, ?_⟩
      rcases h3 with h3 | ⟨t, ht, hk, hts, hte, hlt⟩
      · exact Or.inl ⟨h3, by omega⟩
      · exact Or.inr ⟨t, ht, by rw [hk]; decide, hts, hte, le_of_lt hlt⟩
  | raw =>
      simp only [runFnAction] at h
      obtain ⟨h1, h2, h3⟩ := readRawString_tok h
      refine ⟨h1, ?_⟩
      rcases h3 with h3 | ⟨t, ht, hk, hts, hte, hlt⟩
      · exact Or.inl ⟨h3, by omega⟩
      · exact Or.inr ⟨t, ht, by rw [hk]; decide, hts, hte, le_of_lt hlt⟩

/-! ## Symbol-table wellformedness -/

theorem lookupSym_mem {m : List (Char × SymbolType)} {c : Char}
    {st : SymbolType} (h : lookupSym m c = some st) :
    ∃ p, p ∈ m ∧ p.2 = st := by
  unfold lookupSym at h
  split at h
  · exact Option.noConfusion h
  · cases hf : m.find? (fun p => p.1 == c) with
    | none => rw [hf] at h; exact Option.noConfusion h
    | some pr =>
        rw [hf] at h
        exact ⟨pr, List.mem_of_find?_eq_some hf, Option.some.inj h⟩

theorem tableOK_just {fuel : Nat} {m : List (Char × SymbolType)} {c : Char}
    {k : TokenType} (hm : tableOKf (fuel + 1) m = true)
    (h : lookupSym m c = some (.Just k)) : k ≠ EOF := by
  obtain ⟨p, hp, hp2⟩ := lookupSym_mem h
  simp only [tableOKf] at hm
  have hq := List.all_eq_true.mp hm p hp
  rw [hp2] at hq
  simpa using hq

theorem tableOK_branch {fuel : Nat} {m : List (Char × SymbolType)} {c : Char}
    {mm : List (Char × SymbolType)} {d : TokenType}
    (hm : tableOKf (fuel + 1) m = true)
    (h : lookupSym m c = some (.Symbols mm d)) :
    d ≠ EOF ∧ tableOKf fuel mm = true := by
  obtain ⟨p, hp, hp2⟩ := lookupSym_mem h
  simp only [tableOKf] at hm
  have hq := List.all_eq_true.mp hm p hp
  rw [hp2] at hq
  simpa [Bool.and_eq_true] using hq

theorem SYMBOLS_ok : tableOKf symFuel SYMBOLS = true := by decide

/-! ## The trie scanner preserves wellformedness -/

theorem scanChar_tok :
    ∀ (fuel : Nat) (m : List (Char × SymbolType)) (c : Char) (s : Scanner)
      (r : Bool × Scanner), scanChar fuel m c s = .ok r →
      r.2.start = s.start ∧
      (r.1 = false → r.2 = s) ∧
      (∀ B : Nat, tableOKf fuel m = true → TokInv s.tokens B →
        B + 1 ≤ s.current → s.start + 1 ≤ s.current →
        TokInv r.2.tokens r.2.current ∧ B ≤ r.2.current)
  | 0, _, _, _, _, h => Except.noConfusion h
  | fuel + 1, m, c, s, r, h => by
      simp only [scanChar] at h
      split at h
      · have hp := M_ok_inj h
        subst hp
        refine ⟨rfl, fun _ => rfl, ?_⟩
        intro B hm hI hB hS
        exact ⟨TokInv_mono hI (Nat.le_of_succ_le hB), Nat.le_of_succ_le hB⟩
      · rename_i kind heq
        obtain ⟨s1, h1, h⟩ := M_ok_of_bind h
        obtain ⟨t, ht, hk, hts, hte, hst, hcur⟩ := addToken_tok h1
        have hp := M_ok_inj h
        subst hp
        refine ⟨hst, fun hf => Bool.noConfusion hf, ?_⟩
        intro B hm hI hB hS
        have hkEOF : kind ≠ EOF := tableOK_just hm heq
        have hpush := TokInv_push hI (by rw [hk]; exact hkEOF)
          (by rw [hts, hte]; omega) (by rw [hte]; omega)
        refine ⟨?_, ?_⟩
        · show TokInv s1.tokens s1.current
          rw [ht, hcur]
          rwa [hte] at hpush
        · show B ≤ s1.current
          omega
      · rename_i fa heq
        obtain ⟨s1, h1, h⟩ := M_ok_of_bind h
        have hp := M_ok_inj h
        subst hp
        obtain ⟨f1, f2⟩ := runFnAction_tok h1
        refine ⟨f1, fun hf => Bool.noConfusion hf, ?_⟩
        intro B hm hI hB hS
        rcases f2 with ⟨ft, fc⟩ | ⟨t, ht, hk, hts, hte, hce⟩
        · refine ⟨?_, ?_⟩
          · show TokInv s1.tokens s1.current
            rw [ft]
            exact TokInv_mono hI (by omega)
          · show B ≤ s1.current
            omega
        · have hpush := TokInv_push hI hk (by rw [hts, hte]; omega)
            (by rw [hte]; omega)
          refine ⟨?_, ?_⟩
          · show TokInv s1.tokens s1.current
            rw [ht]
            rwa [hte] at hpush
          · show B ≤ s1.current
            omega
      · rename_i mm dflt heq
        obtain ⟨p1, hp1, h⟩ := M_ok_of_bind h
        obtain ⟨a1, a2, a3, _⟩ := advance_tok hp1
        obtain ⟨p2, hp2, h⟩ := M_ok_of_bind h
        obtain ⟨r1, r2, r3⟩ := scanChar_tok fuel mm p1.1 p1.2 p2 hp2
        split at h
        · have hp := M_ok_inj h
          subst hp
          refine ⟨r1.trans a2, fun hf => Bool.noConfusion hf, ?_⟩
          intro B hm hI hB hS
          obtain ⟨hd, hm2⟩ := tableOK_branch hm heq
          have hrec := r3 B hm2 (by rw [a1]; exact hI)
            (show B + 1 ≤ p1.2.current by omega)
            (show p1.2.start + 1 ≤ p1.2.current by omega)
          exact hrec
        · rename_i hnm
          have hmf : p2.1 = false := Bool.eq_false_iff.mpr hnm
          rw [r2 hmf] at h
          obtain ⟨s4, h4, h⟩ := M_ok_of_bind h
          obtain ⟨t, ht, hk, hts, hte, hst, hcur⟩ := addToken_tok h4
          have ht2 : s4.tokens = p1.2.tokens ++ [t] := ht
          have hts2 : t.startPos.index = p1.2.start := hts
          have hte2 : t.endPos.index = p1.2.current - 1 := hte
          have hst2 : s4.start = p1.2.start := hst
          have hcur2 : s4.current = p1.2.current - 1 := hcur
          have hp := M_ok_inj h
          subst hp
          refine ⟨?_, fun hf => Bool.noConfusion hf, ?_⟩
          · show s4.start = s.start
            rw [hst2, a2]
          · intro B hm hI hB hS
            obtain ⟨hd, hm2⟩ := tableOK_branch hm heq
            have hI1 : TokInv p1.2.tokens B := by rw [a1]; exact hI
            have hpush := TokInv_push hI1 (by rw [hk]; exact hd)
              (by rw [hts2, hte2]; omega) (by rw [hte2]; omega)
            refine ⟨?_, ?_⟩
            · show TokInv s4.tokens s4.current
              rw [ht2, hcur2]
              rwa [hte2] at hpush
            · show B ≤ s4.current
              omega

/-! ## Wellformedness across the number dispatch -/

theorem readNumber_push {check : Char → Bool} {simple : Bool}
    {sb s3 : Scanner} (h : readNumber check simple sb = .ok s3) {B : Nat}
    (hI : TokInv sb.tokens B) (hBs : B ≤ sb.start)
    (hsc : sb.start < sb.current) : TokInv s3.tokens s3.current := by
  obtain ⟨n1, n2, t, ht, hk, hts, hte⟩ := readNumber_tok h
  have hpush := TokInv_push hI (by rw [hk]; decide)
    (by rw [hts, hte]; omega) (by rw [hte]; omega)
  rw [ht]
  rwa [hte] at hpush

/-! ## The driver loop preserves wellformedness -/

theorem scanLoop_tok :
    ∀ (fuel : Nat) (s s2 : Scanner), scanLoop fuel s = .ok s2 →
      TokInv s.tokens s.current → TokInv s2.tokens s2.current
  | 0, _, _, h, _ => Except.noConfusion h
  | fuel + 1, s, s2, h, hI => by
      simp only [scanLoop] at h
      split at h
      · have hs : s = s2 := M_ok_inj h
        subst hs
        exact hI
      · obtain ⟨c0, hc0, h⟩ := M_ok_of_bind h
        split at h
        · have hs : s = s2 := M_ok_inj h
          subst hs
          exact hI
        · obtain ⟨p1, hp1, h⟩ := M_ok_of_bind h
          obtain ⟨a1, a2, a3, _⟩ := advance_tok hp1
          have a1b : p1.2.tokens = s.tokens := a1
          have a2b : p1.2.start = s.current := a2
          have a3b : p1.2.current = s.current + 1 := a3
          obtain ⟨p2, hp2, h⟩ := M_ok_of_bind h
          obtain ⟨r1, r2, r3⟩ := scanChar_tok symFuel SYMBOLS p1.1 p1.2 p2 hp2
          split at h
          · have hIm := r3 s.current SYMBOLS_ok (by rw [a1b]; exact hI)
              (by omega) (by omega)
            exact scanLoop_tok fuel _ s2 h hIm.1
          · rename_i hnm
            have hmf : p2.1 = false := Bool.eq_false_iff.mpr hnm
            rw [r2 hmf] at h
            split at h
            · have hI1 : TokInv p1.2.tokens p1.2.current := by
                rw [a1b, a3b]
                exact TokInv_mono hI (Nat.le_succ _)
              exact scanLoop_tok fuel _ s2 h hI1
            · split at h
              · obtain ⟨s3, h3, h⟩ := M_ok_of_bind h
                have hIp : TokInv p1.2.tokens s.current := by
                  rw [a1b]
                  exact hI
                have hnd : TokInv s3.tokens s3.current := by
                  simp only [numberDispatch] at h3
                  split at h3
                  · obtain ⟨pch, hpch, h3⟩ := M_ok_of_bind h3
                    split at h3
                    · exact readNumber_push h3 hIp (le_of_eq a2b.symm)
                        (show p1.2.start < p1.2.current + 1 by omega)
                    · split at h3
                      · exact readNumber_push h3 hIp (le_of_eq a2b.symm)
                          (show p1.2.start < p1.2.current + 1 by omega)
                      · exact readNumber_push h3 hIp (le_of_eq a2b.symm)
                          (show p1.2.start < p1.2.current by omega)
                  · exact readNumber_push h3 hIp (le_of_eq a2b.symm)
                      (show p1.2.start < p1.2.current by omega)
                exact scanLoop_tok fuel _ s2 h hnd
              · split at h
                · obtain ⟨pid, hpid, h⟩ := M_ok_of_bind h
                  obtain ⟨i1, i2, i3⟩ := readIdentifier_tok hpid
                  obtain ⟨pik, hpik, h⟩ := M_ok_of_bind h
                  obtain ⟨k1, k2, k3, k4⟩ := identKind_tok hpik
                  obtain ⟨s5, h5, h⟩ := M_ok_of_bind h
                  obtain ⟨t, ht, hk, hts, hte, hst, hcur⟩ := addToken_tok h5
                  have hI5 : TokInv s5.tokens s5.current := by
                    have hI4 : TokInv pik.2.tokens s.current := by
                      rw [k2, i1, a1b]
                      exact hI
                    have hpush := TokInv_push hI4 (by rw [hk]; exact k1)
                      (by rw [hts, hte]; omega) (by rw [hte]; omega)
                    rw [ht, hcur]
                    rwa [hte] at hpush
                  exact scanLoop_tok fuel _ s2 h hI5
                · obtain ⟨s3, h3, h⟩ := M_ok_of_bind h
                  obtain ⟨t1, t2, t3, _⟩ := error_tok h3
                  have hI3 : TokInv s3.tokens s3.current := by
                    rw [t1, t3, a1b, a3b]
                    exact TokInv_mono hI (Nat.le_succ _)
                  exact scanLoop_tok fuel _ s2 h hI3

/-- C9: in the token sequence built by scan_code, every non-EOF token has a
strictly increasing span, end-position indices are non-decreasing across the
sequence, and the sequence ends with exactly one EOF token whose lexeme is the
fixed marker, appended unconditionally once the loop finishes. -/
theorem C9_token_stream :
    ∀ (input : List Char) (sf : Scanner), scanCode input = .ok sf →
      ∃ ts : List Token, ∃ eofT : Token,
        sf.tokens = ts ++ [eofT] ∧ eofT.kind = EOF ∧
        eofT.lexeme = "<end>".toList ∧
        (∀ t ∈ ts, t.kind ≠ EOF ∧ t.startPos.index < t.endPos.index) ∧
        List.Chain' (fun x y => x ≤ y) (sf.tokens.map endIdx) ∧
        (sf.tokens.filter (fun t => t.kind == EOF)).length = 1 := by
  intro input sf h
  simp only [scanCode] at h
  obtain ⟨s1, h1, h⟩ := M_ok_of_bind h
  have hT : (Scanner.new input).tokens = [] := by
    simp only [Scanner.new]
    rw [(pushNext_fields _).2.2.2.2.2.2.2.1, (pushNext_fields _).2.2.2.2.2.2.2.1]
  have hI0 : TokInv (Scanner.new input).tokens (Scanner.new input).current := by
    rw [hT]
    exact TokInv_nil _
  have hI1 := scanLoop_tok _ _ _ h1 hI0
  obtain ⟨t, ht, hk, hlex, hts, hte, hst, hcur⟩ := addLiteralToken_tok h
  refine ⟨s1.tokens, t, ht, hk, hlex, ?_, ?_, ?_⟩
  · intro u hu
    obtain ⟨u1, u2, _⟩ := hI1.1 u hu
    exact ⟨u1, u2⟩
  · rw [ht, List.map_append, List.chain'_append]
    refine ⟨hI1.2, by simp, ?_⟩
    intro x hx y hy
    simp only [List.map_cons, List.map_nil, List.head?_cons, Option.mem_def,
      Option.some.injEq] at hy
    have hx2 := List.mem_of_mem_getLast? hx
    obtain ⟨u, hu, rfl⟩ := List.mem_map.mp hx2
    have hub := (hI1.1 u hu).2.2
    rw [← hy]
    exact le_of_le_of_eq hub hte.symm
  · rw [ht, List.filter_append]
    have h1f : s1.tokens.filter (fun u => u.kind == EOF) = [] := by
      rw [List.filter_eq_nil_iff]
      intro u hu
      have hne := (hI1.1 u hu).1
      simp only [beq_iff_eq]
      exact hne
    have h2f : [t].filter (fun u => u.kind == EOF) = [t] := by
      simp [List.filter, hk]
    rw [h1f, h2f]
    rfl

/-- Witness for C9 at the concrete input 1. -/
theorem C9_token_stream_witness :
    ∃ sf : Scanner, scanCode ("1".toList) = .ok sf ∧
      ∃ ts : List Token, ∃ eofT : Token,
        sf.tokens = ts ++ [eofT] ∧ eofT.kind = EOF ∧
        eofT.lexeme = "<end>".toList ∧
        (∀ t ∈ ts, t.kind ≠ EOF ∧ t.startPos.index < t.endPos.index) ∧
        List.Chain' (fun x y => x ≤ y) (sf.tokens.map endIdx) ∧
        (sf.tokens.filter (fun t => t.kind == EOF)).length = 1 := by
  refine ⟨_, rfl, ?_⟩
  exact C9_token_stream ("1".toList) _ rfl

end Clue
